import Mathlib

/-!
Verification of the document segmentation and table-classification core of
the PDFLLM repository (`src/ingestion/chunker.py`, `src/ingestion/table_classifier.py`).

Texts are modelled as `List Char` (`Str`).  Python strings are sequences of
unicode code points, so `List Char` is a faithful model; `len` is `List.length`,
slicing `s[a:b]` (with `0 ≤ a ≤ b ≤ len`) is `(s.take b).drop a`, and so on.
Machine integers do not occur (Python ints are unbounded); character counts are
`Nat`, page numbers are `Int`, classifier scores are exact rationals `ℚ` (the
Python floats 0.15/0.2/0.3/0.4 enter only through sums of at most a handful of
terms, where double rounding never crosses any decision threshold used by the
code).

Loops that are not structurally recursive are modelled with an explicit fuel
parameter so that every definition is executable by the kernel; fuel is an
embedding artifact.  The single genuinely partial loop of the source (the
sliding window of `_chunk_text_block`, which does not terminate when
`chunk_size - chunk_overlap ≤ 0`) is modelled by `windowLoopF`, which returns
`none` for every amount of fuel exactly when the Python loop runs forever; all
other fueled helpers are always called with sufficient fuel.
-/

namespace PDFLLM

abbrev Str := List Char

/-- Python's whitespace set, as used by `str.strip()` (no arguments) and by the
`\s` class of the `re` module on `str` patterns: ASCII whitespace, the C0
separator controls, NEL, and the unicode space separators. -/
def pyIsSpace (c : Char) : Bool :=
  c = ' ' || c = '\t' || c = '\n' || c = '\r' ||
  c = '\x0b' || c = '\x0c' ||
  c = '\x1c' || c = '\x1d' || c = '\x1e' || c = '\x1f' ||
  c = '\u0085' || c = ' ' || c = ' ' ||
  (' ' ≤ c && c ≤ ' ') ||
  c = ' ' || c = ' ' || c = ' ' || c = ' ' || c = '　'

/-- Model of `s.lstrip()` — drop leading whitespace. -/
def lstrip (s : Str) : Str := s.dropWhile pyIsSpace

/-- Model of `s.rstrip()` — drop trailing whitespace. -/
def rstrip (s : Str) : Str := (s.reverse.dropWhile pyIsSpace).reverse

/-- Model of `s.strip()` — drop whitespace on both ends. -/
def pyStrip (s : Str) : Str := lstrip (rstrip s)

/-- Model of `"\n".join(parts)`. -/
def joinNL : List Str → Str
  | [] => []
  | [x] => x
  | x :: xs => x ++ '\n' :: joinNL xs

/-- Model of `" ".join(parts)`. -/
def joinSp : List Str → Str
  | [] => []
  | [x] => x
  | x :: xs => x ++ ' ' :: joinSp xs

/-- Model of `s.split("\n")` — split on every newline, keeping empty parts. -/
def splitOnNL (s : Str) : List Str :=
  s.foldr
    (fun c acc =>
      if c = '\n' then [] :: acc
      else match acc with
        | h :: t => (c :: h) :: t
        | [] => [[c]])
    [[]]

/-- Substring test: `needle in hay` for Python strings. -/
def occursIn (needle : Str) : Str → Bool
  | [] => needle.isEmpty
  | c :: rest => needle.isPrefixOf (c :: rest) || occursIn needle rest

/-- The character list of a string literal (notation convenience). -/
def lit (s : String) : Str := s.data

/-! ### Lemmas about stripping -/

theorem rstrip_append_suffix (s : Str) :
    ∃ post, s = rstrip s ++ post ∧ ∀ c ∈ post, pyIsSpace c := by
  refine ⟨(s.reverse.takeWhile pyIsSpace).reverse, ?_, ?_⟩
  · show s = (s.reverse.dropWhile pyIsSpace).reverse ++ (s.reverse.takeWhile pyIsSpace).reverse
    rw [← List.reverse_append, List.takeWhile_append_dropWhile, List.reverse_reverse]
  · intro c hc
    exact List.mem_takeWhile_imp (List.mem_reverse.mp hc)

theorem lstrip_prefix_append (s : Str) :
    ∃ pre, s = pre ++ lstrip s ∧ ∀ c ∈ pre, pyIsSpace c := by
  refine ⟨s.takeWhile pyIsSpace, (List.takeWhile_append_dropWhile _ _).symm, ?_⟩
  intro c hc
  exact List.mem_takeWhile_imp hc

/-- Any `s` decomposes as whitespace, `s.strip()`, whitespace. -/
theorem pyStrip_decomp (s : Str) :
    ∃ pre post, s = pre ++ pyStrip s ++ post ∧
      (∀ c ∈ pre, pyIsSpace c) ∧ (∀ c ∈ post, pyIsSpace c) := by
  obtain ⟨post, hpost, hps⟩ := rstrip_append_suffix s
  obtain ⟨pre, hpre, hprs⟩ := lstrip_prefix_append (rstrip s)
  refine ⟨pre, post, ?_, hprs, hps⟩
  conv_lhs => rw [hpost, hpre]
  simp [pyStrip]

theorem pyStrip_isInfix (s : Str) : pyStrip s <:+: s := by
  obtain ⟨pre, post, hs, -, -⟩ := pyStrip_decomp s
  exact ⟨pre, post, hs.symm⟩

theorem mem_pyStrip_of_nonspace {c : Char} {s : Str}
    (hc : c ∈ s) (hns : ¬ pyIsSpace c) : c ∈ pyStrip s := by
  obtain ⟨pre, post, hs, hpre, hpost⟩ := pyStrip_decomp s
  rw [hs] at hc
  rcases List.mem_append.mp hc with h | h
  · rcases List.mem_append.mp h with h' | h'
    · exact absurd (hpre c h') hns
    · exact h'
  · exact absurd (hpost c h) hns

theorem pyStrip_eq_nil_iff (s : Str) : pyStrip s = [] ↔ ∀ c ∈ s, pyIsSpace c := by
  constructor
  · intro h c hc
    by_contra hns
    have := mem_pyStrip_of_nonspace hc hns
    rw [h] at this
    exact absurd this (List.not_mem_nil c)
  · intro h
    have hr : ∀ c ∈ rstrip s, pyIsSpace c := by
      intro c hc
      obtain ⟨post, hpost, -⟩ := rstrip_append_suffix s
      exact h c (hpost ▸ List.mem_append.mpr (Or.inl hc))
    simpa [pyStrip, lstrip, List.dropWhile_eq_nil_iff] using hr

theorem pyStrip_ne_nil_iff (s : Str) : pyStrip s ≠ [] ↔ ∃ c ∈ s, ¬ pyIsSpace c := by
  rw [Ne, pyStrip_eq_nil_iff]
  push_neg
  simp

/-- The first character of a nonempty `dropWhile` result fails the predicate. -/
theorem head_dropWhile_not (p : Char → Bool) (s : Str) {c : Char} {t : Str}
    (h : s.dropWhile p = c :: t) : ¬ p c := by
  induction s with
  | nil => simp at h
  | cons a as ih =>
    by_cases hpa : p a
    · rw [List.dropWhile_cons_of_pos hpa] at h
      exact ih h
    · rw [List.dropWhile_cons_of_neg hpa] at h
      cases h
      exact hpa

theorem pyStrip_head_not_space {c : Char} {t : Str} {s : Str}
    (h : pyStrip s = c :: t) : ¬ pyIsSpace c :=
  head_dropWhile_not pyIsSpace (rstrip s) h

theorem lstrip_suffix (s : Str) : lstrip s <:+ s := List.dropWhile_suffix _

theorem head?_dropWhile_not (p : Char → Bool) (s : Str) {c : Char}
    (h : (s.dropWhile p).head? = some c) : ¬ p c := by
  cases hd : s.dropWhile p with
  | nil => rw [hd] at h; exact absurd h (by simp)
  | cons a t =>
    rw [hd] at h
    simp only [List.head?_cons, Option.some.injEq] at h
    exact h ▸ head_dropWhile_not p s hd

/-- The last character of a nonempty `s.strip()` is not whitespace. -/
theorem pyStrip_getLast?_not_space {s : Str} {c : Char}
    (h : (pyStrip s).getLast? = some c) : ¬ pyIsSpace c := by
  have hne : pyStrip s ≠ [] := by
    intro hnil
    rw [hnil] at h
    exact absurd h (by simp)
  -- the strip is a suffix of rstrip s, so they share the last element
  obtain ⟨pre, hpre⟩ : pyStrip s <:+ rstrip s := lstrip_suffix _
  have hr : (rstrip s).getLast? = some c := by
    rw [← hpre, List.getLast?_append_of_ne_nil pre hne, h]
  -- last of rstrip s = head of dropWhile on the reverse
  have hrev : (rstrip s).reverse = s.reverse.dropWhile pyIsSpace := by
    simp [rstrip]
  have hh : (s.reverse.dropWhile pyIsSpace).head? = some c := by
    rw [← hrev, List.head?_reverse, hr]
  exact head?_dropWhile_not pyIsSpace s.reverse hh

/-! ### A small backtracking regex engine

The chunker and classifier use a handful of fixed `re` patterns.  Every
quantifier in those patterns ranges over a single-character class, every
literal is fixed, and the only group is an optional alternation of two fixed
literals, so the patterns are modelled as flat sequences of `RItem`s and
matched with standard leftmost/greedy backtracking.  Fuel makes the matcher
structurally recursive; callers always supply sufficient fuel. -/

inductive RItem where
  /-- a character class with a repetition range (`hi = none` means unbounded) -/
  | icls (p : Char → Bool) (lo : Nat) (hi : Option Nat)
  /-- a fixed literal -/
  | ilit (s : Str)
  /-- Group `(a|b|…)?` — an optional alternation of fixed literals, tried in order,
      then the empty alternative -/
  | iopt (alts : List Str)
  /-- Anchor `$` in MULTILINE mode: end of string or before a newline -/
  | iend

mutual

/-- Match `items` against a prefix of `s`; return the number of characters
consumed by the leftmost-greedy match, if any. -/
def matchSeqF : Nat → List RItem → Str → Option Nat
  | 0, _, _ => none
  | _ + 1, [], _ => some 0
  | fuel + 1, .ilit l :: rest, s =>
      if l.isPrefixOf s then (matchSeqF fuel rest (s.drop l.length)).map (l.length + ·)
      else none
  | fuel + 1, .iopt alts :: rest, s => matchOptF fuel alts rest s
  | fuel + 1, .iend :: rest, s =>
      match s with
      | [] => matchSeqF fuel rest []
      | c :: _ => if c = '\n' then matchSeqF fuel rest s else none
  | fuel + 1, .icls p lo hi :: rest, s =>
      let m := (s.takeWhile p).length
      let hi' := match hi with
        | none => m
        | some h => min h m
      matchClsF fuel rest s lo hi'

/-- Try the alternatives of an optional group in order, then the empty one. -/
def matchOptF : Nat → List Str → List RItem → Str → Option Nat
  | 0, _, _, _ => none
  | fuel + 1, [], rest, s => matchSeqF fuel rest s
  | fuel + 1, a :: as, rest, s =>
      match (if a.isPrefixOf s then (matchSeqF fuel rest (s.drop a.length)).map (a.length + ·)
             else none) with
      | some n => some n
      | none => matchOptF fuel as rest s

/-- Greedy class matching: try consuming `n, n-1, …, lo` characters. -/
def matchClsF : Nat → List RItem → Str → Nat → Nat → Option Nat
  | 0, _, _, _, _ => none
  | fuel + 1, rest, s, lo, n =>
      if n < lo then none
      else
        match matchSeqF fuel rest (s.drop n) with
        | some m => some (n + m)
        | none => if n = 0 then none else matchClsF fuel rest s lo (n - 1)

end

/-- Enough fuel for any match attempt of our fixed patterns on `s`. -/
def fuelFor (items : List RItem) (s : Str) : Nat :=
  (items.length + 1) * (s.length + 2)

/-- Model of `pattern.finditer(text)` for a MULTILINE `^`-anchored pattern: scan
positions left to right, only attempting a match at the start of a line, and
resume after the end of each (non-empty) match.  Returns `(position, length)`
pairs.  Our patterns cannot match the empty string; a hypothetical empty match
is treated as no match. -/
def findIterF : Nat → List RItem → Str → Nat → Bool → List (Nat × Nat)
  | 0, _, _, _, _ => []
  | fuel + 1, items, s, pos, lineStart =>
      match s with
      | [] => []
      | c :: rest =>
          match (if lineStart then matchSeqF (fuelFor items s) items s else none) with
          | some (n + 1) =>
              (pos, n + 1) ::
                findIterF fuel items (s.drop (n + 1)) (pos + (n + 1))
                  ((s.drop n).head? = some '\n')
          | _ => findIterF fuel items rest (pos + 1) (c = '\n')

def pyFindIter (items : List RItem) (s : Str) : List (Nat × Nat) :=
  findIterF (s.length + 1) items s 0 true

/-- Model of `re.search(pattern, text)` for an unanchored pattern: leftmost match,
returned as `(position, length)`. -/
def reSearchAux (items : List RItem) : Str → Nat → Option (Nat × Nat)
  | [], pos => (matchSeqF (fuelFor items []) items []).map (fun n => (pos, n))
  | c :: rest, pos =>
      match matchSeqF (fuelFor items (c :: rest)) items (c :: rest) with
      | some n => some (pos, n)
      | none => reSearchAux items rest (pos + 1)

def reSearch (items : List RItem) (s : Str) : Option (Nat × Nat) :=
  reSearchAux items s 0

/-- Model of `re.split(r"\n\s*\n", text)`: scan for a newline followed by a (greedy)
whitespace run that still contains another newline; each such leftmost match
separates two parts. -/
def splitBlankAux : Nat → Str → Str → List Str
  | 0, s, accRev => [accRev.reverse ++ s]
  | _ + 1, [], accRev => [accRev.reverse]
  | fuel + 1, c :: rest, accRev =>
      if c = '\n' then
        -- the greedy `\s*` backtracks to the last newline of the whitespace run
        match ((rest.takeWhile pyIsSpace).reverse.findIdx? (· = '\n')).map
            (fun k => (rest.takeWhile pyIsSpace).length - 1 - k) with
        | some j => accRev.reverse :: splitBlankAux fuel (rest.drop (j + 1)) []
        | none => splitBlankAux fuel rest (c :: accRev)
      else splitBlankAux fuel rest (c :: accRev)

def pySplitBlank (s : Str) : List Str := splitBlankAux (s.length + 1) s []

/-! ### Section detection (`_find_sections`, `_split_by_sections`)

`SECTION_PATTERNS` from `chunker.py`.  `\d` is modelled as ASCII digits (the
unicode decimal digits that Python's `\d` additionally accepts do not occur in
this development's inputs). -/

def isCnNumeral1 (c : Char) : Bool :=
  c = '一' || c = '二' || c = '三' || c = '四' || c = '五' || c = '六' ||
  c = '七' || c = '八' || c = '九' || c = '十' || c = '百' || c.isDigit

def isCnNumeral2 (c : Char) : Bool :=
  c = '一' || c = '二' || c = '三' || c = '四' || c = '五' || c = '六' ||
  c = '七' || c = '八' || c = '九' || c = '十'

def notNL (c : Char) : Bool := !(c = '\n')

/-- Pattern `^#{0,3}\s*第[一二三四五六七八九十百\d]+[节章]\s+.+` -/
def sectionPattern1 : List RItem :=
  [.icls (· = '#') 0 (some 3), .icls pyIsSpace 0 none, .ilit (lit "第"),
   .icls isCnNumeral1 1 none, .icls (fun c => c = '节' || c = '章') 1 (some 1),
   .icls pyIsSpace 1 none, .icls notNL 1 none]

/-- Pattern `^#{0,3}\s*[一二三四五六七八九十]+[、．.]\s*.+` -/
def sectionPattern2 : List RItem :=
  [.icls (· = '#') 0 (some 3), .icls pyIsSpace 0 none,
   .icls isCnNumeral2 1 none, .icls (fun c => c = '、' || c = '．' || c = '.') 1 (some 1),
   .icls pyIsSpace 0 none, .icls notNL 1 none]

/-- Pattern `^#{1,3}\s+.{2,30}\s*$` -/
def sectionPattern3 : List RItem :=
  [.icls (· = '#') 1 (some 3), .icls pyIsSpace 1 none,
   .icls notNL 2 (some 30), .icls pyIsSpace 0 none, .iend]

def sectionPatterns : List (List RItem) :=
  [sectionPattern1, sectionPattern2, sectionPattern3]

/-- Model of `m.group().strip().lstrip("#").strip()` -/
def cleanTitle (raw : Str) : Str :=
  pyStrip ((pyStrip raw).dropWhile (· = '#'))

/-- Python string `<` (lexicographic by code point). -/
def strLt : Str → Str → Bool
  | _, [] => false
  | [], _ :: _ => true
  | a :: as, b :: bs => a < b || (a = b && strLt as bs)

/-- Python tuple comparison `(pos₁, title₁) ≤ (pos₂, title₂)`. -/
def hitLe (x y : Nat × Str) : Bool :=
  x.1 < y.1 || (x.1 = y.1 && (strLt x.2 y.2 || x.2 = y.2))

/-- The dedup loop of `_find_sections`: drop a hit within 5 characters of an
already-kept position. -/
def dedupeHits : List (Nat × Str) → List Nat → List (Nat × Str)
  | [], _ => []
  | (pos, t) :: rest, seen =>
      if seen.any (fun p => Nat.dist pos p < 5) then dedupeHits rest seen
      else (pos, t) :: dedupeHits rest (pos :: seen)

/-- Model of `_find_sections(text)`: all pattern matches, cleaned and length-filtered,
sorted by `(position, title)`, deduplicated by position proximity. -/
def findSections (text : Str) : List (Nat × Str) :=
  let hits := sectionPatterns.flatMap (fun items =>
    (pyFindIter items text).filterMap (fun (pn : Nat × Nat) =>
      let title := cleanTitle ((text.drop pn.1).take pn.2)
      if 2 ≤ title.length ∧ title.length ≤ 50 then some (pn.1, title) else none))
  dedupeHits (hits.insertionSort (fun a b => hitLe a b = true)) []

/-- A section span: `{"title": …, "text": …, "start": …}`. -/
structure Section where
  title : Str
  text : Str
  start : Nat
deriving DecidableEq, Repr

/-- The per-heading spans of `_split_by_sections`: each span runs from its
heading's position to the next heading's position (or end of text), stripped,
and is dropped when empty. -/
def sectionSpans (fullText : Str) : List (Nat × Str) → List Section
  | [] => []
  | (pos, title) :: rest =>
      let e := match rest with
        | (next, _) :: _ => next
        | [] => fullText.length
      let t := pyStrip ((fullText.take e).drop pos)
      (if t ≠ [] then [(⟨title, t, pos⟩ : Section)] else []) ++ sectionSpans fullText rest

/-- Model of `_split_by_sections(full_text)`. -/
def splitBySections (fullText : Str) : List Section :=
  let sections := findSections fullText
  match sections with
  | [] => [⟨[], fullText, 0⟩]
  | (pos₀, _) :: _ =>
      let pre :=
        if pos₀ > 0 then
          let preText := pyStrip (fullText.take pos₀)
          if preText ≠ [] then [(⟨[], preText, 0⟩ : Section)] else []
        else []
      pre ++ sectionSpans fullText sections

/-! ### Block separator (`_split_text_and_tables`) -/

inductive BlockType where
  | text
  | table
deriving DecidableEq, Repr

/-- A typed block: `{"type": "text"|"table", "content": …}`. -/
structure Block where
  type : BlockType
  content : Str
deriving DecidableEq, Repr

/-- Model of `line.strip().startswith("|")` -/
def isTableLine (line : Str) : Bool :=
  (pyStrip line).head? = some '|'

/-- Flush the pending run as a block, dropping it when `lines` is empty or the
stripped content is empty. -/
def flushRun (bt : BlockType) (lines : List Str) : List Block :=
  match lines with
  | [] => []
  | _ =>
      if pyStrip (joinNL lines) = [] then [] else [⟨bt, pyStrip (joinNL lines)⟩]

/-- The line loop of `_split_text_and_tables`. -/
def splitTTLoop : List Str → BlockType → List Str → List Block
  | [], ct, cl => flushRun ct cl
  | line :: rest, ct, cl =>
      let it := isTableLine line
      if it && (ct == .text) then
        flushRun .text cl ++ splitTTLoop rest .table [line]
      else if !it && (ct == .table) then
        flushRun .table cl ++ splitTTLoop rest .text [line]
      else
        splitTTLoop rest ct (cl ++ [line])

/-- Model of `_split_text_and_tables(section_text)`. -/
def splitTextAndTables (sectionText : Str) : List Block :=
  splitTTLoop (splitOnNL sectionText) .text []

/-! ### Text chunker (`_chunk_text_block`)

The sliding-window loop `while pos < len(para): … ; pos += step` does not
terminate when `step = chunk_size - chunk_overlap ≤ 0` (Python then either
keeps `pos` fixed or decreases it).  `windowLoopF` models the loop with fuel:
it yields `none` for every fuel value exactly when the Python loop diverges.
`step` is a `Nat` here: for `chunk_overlap > chunk_size` Python's negative
step also diverges, which truncated subtraction (`step = 0`) models with the
same observable outcome. -/

def windowLoopF : Nat → Str → Nat → Nat → Nat → Option (List Str)
  | 0, _, _, _, _ => none
  | fuel + 1, para, size, step, pos =>
      if pos < para.length then
        (windowLoopF fuel para size step (pos + step)).map
          (pyStrip ((para.take (min (pos + size) para.length)).drop pos) :: ·)
      else some []

/-- The paragraph loop of `_chunk_text_block`: greedily merge stripped
paragraphs into `current`, flushing on overflow; slide a window over an
oversized paragraph. -/
def chunkLoopF (fuel : Nat) : List Str → Nat → Nat → Str → Option (List Str)
  | [], _, _, current =>
      some (if pyStrip current ≠ [] then [pyStrip current] else [])
  | para₀ :: rest, size, overlap, current =>
      let para := pyStrip para₀
      if para = [] then chunkLoopF fuel rest size overlap current
      else if current.length + para.length + 2 ≤ size then
        chunkLoopF fuel rest size overlap
          (if current = [] then para else current ++ lit "\n\n" ++ para)
      else
        let pre := if current ≠ [] then [pyStrip current] else []
        if para.length ≤ size then
          (chunkLoopF fuel rest size overlap para).map (pre ++ ·)
        else
          match windowLoopF fuel para size (size - overlap) 0 with
          | none => none
          | some ws => (chunkLoopF fuel rest size overlap []).map (pre ++ ws ++ ·)

/-- Model of `_chunk_text_block(text, chunk_size, chunk_overlap)`. -/
def chunkTextBlockF (fuel : Nat) (text : Str) (size overlap : Nat) : Option (List Str) :=
  if text.length ≤ size then some [text]
  else chunkLoopF fuel (pySplitBlank text) size overlap []

/-- The source's loop terminates on this input (the embedding returns a value
for some amount of fuel). -/
def TerminatesCTB (text : Str) (size overlap : Nat) : Prop :=
  ∃ fuel ps, chunkTextBlockF fuel text size overlap = some ps

/-! ### Page locator (`_get_page_for_position`) -/

/-- A page-boundary triple `(start, end, page_number)`. -/
abbrev PageBound := Nat × Nat × Int

/-- The `for` loop of `_get_page_for_position`: first triple whose `end`
exceeds the position. -/
def pageLoop (position : Nat) : List PageBound → Option Int
  | [] => none
  | b :: rest => if position < b.2.1 then some b.2.2 else pageLoop position rest

/-- Model of `_get_page_for_position(position, page_boundaries)`. -/
def getPageForPosition (position : Nat) (pb : List PageBound) : Int :=
  match pageLoop position pb with
  | some p => p
  | none =>
      match pb.getLast? with
      | some b => b.2.2
      | none => 1

/-! ### Chunk assembler (`chunk_pages`) -/

/-- One element of the `pages` input: `{"page_number": …, "text": …}`. -/
structure PageRec where
  page_number : Int
  text : Str
deriving DecidableEq, Repr

/-- The emitted chunk (the fields of `Chunk` in `src/infra/models.py` that
`chunk_pages` sets; `metadata` holds the `chunk_type` tag). -/
structure Chunk where
  doc_id : Str
  chunk_id : Nat
  text : Str
  page : Int
  «section» : Str
  metadata : List (Str × Str)
deriving DecidableEq, Repr

def isTableChunk (c : Chunk) : Bool :=
  ((c.metadata.find? (fun kv => kv.1 = lit "chunk_type")).map (·.2)) = some (lit "table")

/-- The page walk of `chunk_pages`, from a given running start offset:
concatenate page texts with `"\n\n"` separators, recording the page-boundary
triples. -/
def buildFullTextFrom (start : Nat) : List PageRec → Str × List PageBound
  | [] => ([], [])
  | p :: rest =>
      let tail := buildFullTextFrom (start + p.text.length + 2) rest
      (p.text ++ lit "\n\n" ++ tail.1,
        (start, start + p.text.length + 2, p.page_number) :: tail.2)

/-- Concatenate page texts with `"\n\n"` separators, recording the
page-boundary triples. -/
def buildFullText (pages : List PageRec) : Str × List PageBound :=
  buildFullTextFrom 0 pages

/-- Emit one text chunk per piece, consecutive ids starting at `cid`. -/
def emitTexts (doc : Str) (title : Str) (page : Int) : List Str → Nat → List Chunk
  | [], _ => []
  | t :: ts, cid =>
      ⟨doc, cid, t, page, title, [(lit "chunk_type", lit "text")]⟩ ::
        emitTexts doc title page ts (cid + 1)

/-- The block loop of `chunk_pages` within one section: thread the running
offset and the chunk id. -/
def runBlocksF (fuel : Nat) (pb : List PageBound) (doc : Str) (size overlap : Nat)
    (title : Str) : List Block → Nat → Nat → Option (List Chunk × Nat)
  | [], _, cid => some ([], cid)
  | b :: rest, offset, cid =>
      if pyStrip b.content = [] then runBlocksF fuel pb doc size overlap title rest offset cid
      else
        let page := getPageForPosition offset pb
        match b.type with
        | .table =>
            (runBlocksF fuel pb doc size overlap title rest
                (offset + b.content.length + 2) (cid + 1)).map
              (fun r =>
                (⟨doc, cid, b.content, page, title, [(lit "chunk_type", lit "table")]⟩ ::
                  r.1, r.2))
        | .text =>
            match chunkTextBlockF fuel b.content size overlap with
            | none => none
            | some pieces =>
                let kept := pieces.filter (fun t => pyStrip t ≠ [])
                (runBlocksF fuel pb doc size overlap title rest
                    (offset + b.content.length + 2) (cid + kept.length)).map
                  (fun r => (emitTexts doc title page kept cid ++ r.1, r.2))

/-- The section loop of `chunk_pages`. -/
def runSectionsF (fuel : Nat) (pb : List PageBound) (doc : Str) (size overlap : Nat) :
    List Section → Nat → Option (List Chunk)
  | [], _ => some []
  | s :: rest, cid =>
      match runBlocksF fuel pb doc size overlap s.title
          (splitTextAndTables s.text) s.start cid with
      | none => none
      | some (cs, cid') =>
          (runSectionsF fuel pb doc size overlap rest cid').map (cs ++ ·)

/-- Model of `chunk_pages(pages, doc_id, chunk_size, chunk_overlap)` with the size and
overlap already resolved (the Python defaults read them from the settings
object, which is configuration outside this core). -/
def chunkPagesF (fuel : Nat) (pages : List PageRec) (doc : Str)
    (size overlap : Nat) : Option (List Chunk) :=
  if pages.isEmpty then some []
  else
    let ft := buildFullText pages
    runSectionsF fuel ft.2 doc size overlap (splitBySections ft.1) 0

/-- The table-typed block contents produced by the section/block stages, in
document order (the reference value for the no-table-splitting claim). -/
def tableBlockContents (pages : List PageRec) : List Str :=
  (splitBySections (buildFullText pages).1).flatMap
    (fun s => ((splitTextAndTables s.text).filter (fun b => b.type = .table)).map
      (·.content))

/-! ### Table classifier (`table_classifier.py`) -/

/-- A table's cell grid: column names plus data rows (`pd.DataFrame` with all
cells already rendered as strings, which is how the classifier consumes it). -/
structure Grid where
  columns : List Str
  rows : List (List Str)
deriving DecidableEq, Repr

/-- Model of `df.empty` — true when any axis has length 0. -/
def gridEmpty (g : Grid) : Bool := g.rows.isEmpty || g.columns.isEmpty

def FINANCIAL_KEYWORDS : List Str :=
  [lit "资产负债表", lit "利润表", lit "现金流量表", lit "所有者权益",
   lit "合并资产", lit "母公司资产", lit "财务状况", lit "经营成果",
   lit "资产总额", lit "负债总额", lit "营业收入", lit "净利润",
   lit "现金及现金等价物", lit "应收账款", lit "存货"]

def FUNDRAISING_KEYWORDS : List Str :=
  [lit "募集资金", lit "资金用途", lit "募资", lit "投向", lit "募投项目",
   lit "募集配套资金", lit "发行股份", lit "认购", lit "配套融资",
   lit "资金使用", lit "资金投向", lit "募集说明"]

/-- Model of `_extract_table_text(df)`: column names plus the first (at most) five data
rows, space-joined; empty grid gives the empty string. -/
def extractTableText (g : Grid) : Str :=
  if gridEmpty g then []
  else joinSp (g.columns ++ (g.rows.take 5).flatMap id)

/-- The `if/elif` category chain of `_is_financial_report`: first matching
category wins. -/
def financialCategoryBonus (text : Str) : ℚ × Str :=
  if occursIn (lit "资产负债表") text || occursIn (lit "资产总计") text then
    (4/10, lit "balance_sheet")
  else if occursIn (lit "利润表") text || occursIn (lit "营业收入") text ||
      occursIn (lit "净利润") text then
    (4/10, lit "income_statement")
  else if occursIn (lit "现金流量表") text || occursIn (lit "现金及现金等价物") text then
    (4/10, lit "cash_flow_statement")
  else if occursIn (lit "所有者权益") text then
    (3/10, lit "equity_statement")
  else (0, lit "unknown")

/-- The structural-column check of `_is_financial_report`. -/
def hasStructuralColumns (g : Grid) : Bool :=
  let columnText := joinSp g.columns
  [lit "项目", lit "金额", lit "本期", lit "上期", lit "年初", lit "年末"].any
    (fun kw => occursIn kw columnText)

/-- Model of `_is_financial_report(df, text)` → `(is_financial, score, category)`. -/
def isFinancialReport (g : Grid) (text : Str) : Bool × ℚ × Str :=
  let keywordMatches := (FINANCIAL_KEYWORDS.filter (fun kw => occursIn kw text)).length
  let cb := financialCategoryBonus text
  let score₂ : ℚ := (keywordMatches : ℚ) * (15/100) + cb.1
  let score := if !gridEmpty g && hasStructuralColumns g then score₂ + 2/10 else score₂
  (score > 3/10, min score 1, cb.2)

/-- The `if/elif` category chain of `_is_fundraising_table`. -/
def fundraisingCategoryBonus (text : Str) : ℚ × Str :=
  if occursIn (lit "募集资金") text && occursIn (lit "使用") text then
    (4/10, lit "usage")
  else if occursIn (lit "募集资金") text &&
      (occursIn (lit "来源") text || occursIn (lit "认购") text) then
    (4/10, lit "source")
  else if occursIn (lit "配套融资") text || occursIn (lit "发行股份") text then
    (3/10, lit "issuance")
  else (0, lit "unknown")

/-- Model of `_is_fundraising_table(df, text)` → `(is_fundraising, score, category)`. -/
def isFundraisingTable (_g : Grid) (text : Str) : Bool × ℚ × Str :=
  let keywordMatches := (FUNDRAISING_KEYWORDS.filter (fun kw => occursIn kw text)).length
  let cb := fundraisingCategoryBonus text
  let score : ℚ := (keywordMatches : ℚ) * (2/10) + cb.1
  (score > 3/10, min score 1, cb.2)

/-- Character class `[^，。\n]`. -/
def notPunctNL (c : Char) : Bool := !(c = '，' || c = '。' || c = '\n')

def categoryNames : List (Str × Str) :=
  [(lit "balance_sheet", lit "资产负债表"),
   (lit "income_statement", lit "利润表"),
   (lit "cash_flow_statement", lit "现金流量表"),
   (lit "equity_statement", lit "所有者权益变动表")]

/-- Try one title pattern: `re.search`, strip, remove all whitespace
(`re.sub(r'\s+', '')`), keep when longer than `minLen`. -/
def tryTitlePattern (items : List RItem) (text : Str) (minLen : Nat) : Option Str :=
  match reSearch items text with
  | some pn =>
      let title := (pyStrip ((text.drop pn.1).take pn.2)).filter (fun c => !pyIsSpace c)
      if title.length > minLen then some title else none
  | none => none

/-- Model of `_extract_financial_title(text, category)`. -/
def extractFinancialTitle (text : Str) (category : Str) : Str :=
  let base := ((categoryNames.find? (fun kv => kv.1 = category)).map (·.2)).getD (lit "财务报表")
  let p₁ : List RItem :=
    [.iopt [lit "合并", lit "母公司"], .icls notPunctNL 0 (some 20), .ilit base,
     .icls notPunctNL 0 (some 30)]
  let p₂ : List RItem :=
    [.icls notPunctNL 0 (some 20), .ilit base, .icls notPunctNL 0 (some 30)]
  match tryTitlePattern p₁ text 5 with
  | some t => t
  | none =>
      match tryTitlePattern p₂ text 5 with
      | some t => t
      | none => base

/-- Model of `_extract_fundraising_title(text)`. -/
def extractFundraisingTitle (text : Str) : Str :=
  let p₁ : List RItem := [.ilit (lit "募集资金"), .icls notPunctNL 0 (some 30)]
  let p₂ : List RItem :=
    [.icls notPunctNL 0 (some 20), .ilit (lit "募集资金"), .icls notPunctNL 0 (some 20)]
  match tryTitlePattern p₁ text 3 with
  | some t => t
  | none =>
      match tryTitlePattern p₂ text 3 with
      | some t => t
      | none => lit "募集资金相关"

inductive CType where
  | financial_report
  | fundraising
  | other
deriving DecidableEq, Repr

/-- The classification record returned by `classify_table`. -/
structure Classification where
  type : CType
  confidence : ℚ
  category : Str
  suggested_title : Str
deriving DecidableEq, Repr

/-- Model of `TableClassifier.classify_table(table_data, context_text)`. -/
def classifyTable (g : Grid) (contextText : Str) : Classification :=
  let combined := contextText ++ ' ' :: extractTableText g
  let fin := isFinancialReport g combined
  let fund := isFundraisingTable g combined
  if fin.2.1 > fund.2.1 ∧ fin.2.1 > 3/10 then
    ⟨.financial_report, fin.2.1, fin.2.2, extractFinancialTitle combined fin.2.2⟩
  else if fund.2.1 > 3/10 then
    ⟨.fundraising, fund.2.1, fund.2.2, extractFundraisingTitle combined⟩
  else ⟨.other, 0, lit "unknown", []⟩

/-! ### Table records (`extract_title_from_context`, `classify_and_title_tables`)

Table records and text chunks are Python dicts; they are modelled as
association lists from string keys to a value universe `Val` covering the
shapes the code reads and writes (lookup takes the first binding — dict keys
are unique). -/

inductive Val where
  | vStr (s : Str)
  | vInt (n : Int)
  | vGrid (g : Grid)
  | vClassif (c : Classification)
  | vNone
deriving DecidableEq, Repr

abbrev Dict := List (Str × Val)

/-- Model of `d.get(k)` / `d[k]`. -/
def dget (d : Dict) (k : Str) : Option Val :=
  (d.find? (fun kv => kv.1 = k)).map (·.2)

/-- Model of `d[k] = v` (as performed by `dict.update`): replace the binding in place,
or append a new one. -/
def dset (d : Dict) (k : Str) (v : Val) : Dict :=
  if d.any (fun kv => kv.1 = k) then d.map (fun kv => if kv.1 = k then (k, v) else kv)
  else d ++ [(k, v)]

def allTitleKeywords : List Str := FINANCIAL_KEYWORDS ++ FUNDRAISING_KEYWORDS

/-- Model of `chunk.get('page') in [table_page - 1, table_page]` -/
def chunkOnPages (c : Dict) (p : Int) : Bool :=
  dget c (lit "page") = some (.vInt (p - 1)) || dget c (lit "page") = some (.vInt p)

/-- Model of `chunk.get('text', '')` (a non-string value would fault in the Python
`join` and is outside the modelled input space). -/
def chunkTextVal (c : Dict) : Str :=
  match dget c (lit "text") with
  | some (.vStr s) => s
  | _ => []

/-- Model of `re.match(r'^[\d\s.,%\-]+$', line)` as a whole-line test. -/
def isAllNumPunct (line : Str) : Bool :=
  line.all (fun c => c.isDigit || pyIsSpace c || c = '.' || c = ',' || c = '%' || c = '-')

/-- Model of `TableClassifier.extract_title_from_context(text_chunks, table_page,
table_index)`.  The `table_index` argument is accepted but never read. -/
def extractTitleFromContext (textChunks : List Dict) (tablePage : Int)
    (_tableIndex : Int) : Option Str :=
  let relevant := (textChunks.filter (fun c => chunkOnPages c tablePage)).map chunkTextVal
  if relevant.isEmpty then none
  else
    let lines := ((splitOnNL (joinNL relevant)).map pyStrip).filter (· ≠ [])
    let candidates := lines.filter (fun line =>
      (5 ≤ line.length && line.length ≤ 40) &&
      allTitleKeywords.any (fun kw => occursIn kw line) &&
      !isAllNumPunct line)
    candidates.getLast?

/-- Model of `table.get('data', {})` fed to `pd.DataFrame`. -/
def toGrid : Option Val → Grid
  | some (.vGrid g) => g
  | _ => ⟨[], []⟩

/-- Model of `table.get('page', 0)`. -/
def toPage : Option Val → Int
  | some (.vInt n) => n
  | _ => 0

/-- Python's `x or d` for an optional/emptyable string. -/
def pyOrStr (o : Option Str) (d : Str) : Str :=
  match o with
  | some s => if s = [] then d else s
  | none => d

/-- One iteration of the `classify_and_title_tables` loop: build the enhanced
copy of table record `t` at index `i`. -/
def enhanceTable (textChunks : List Dict) (t : Dict) (i : Nat) : Dict :=
  let df := toGrid (dget t (lit "data"))
  let page := toPage (dget t (lit "page"))
  let contextTitle := extractTitleFromContext textChunks page i
  let classification := classifyTable df (pyOrStr contextTitle [])
  let finalTitle :=
    pyOrStr contextTitle
      (pyOrStr (some classification.suggested_title)
        (lit "表格_" ++ (toString (i + 1)).data))
  dset (dset (dset t (lit "title") (.vStr finalTitle))
      (lit "classification") (.vClassif classification))
    (lit "context_title")
    (match contextTitle with | some s => .vStr s | none => .vNone)

/-- The loop of `classify_and_title_tables`, with the running index. -/
def catLoop (textChunks : List Dict) : List Dict → Nat → List Dict
  | [], _ => []
  | t :: rest, i => enhanceTable textChunks t i :: catLoop textChunks rest (i + 1)

/-- Model of `classify_and_title_tables(tables, text_chunks)`. -/
def classifyAndTitleTables (tables : List Dict) (textChunks : List Dict) : List Dict :=
  catLoop textChunks tables 0

/-! ## Theorems -/

/-! ### C8 — page locator -/

theorem pageLoop_eq_find? (pos : Nat) (pb : List PageBound) :
    pageLoop pos pb = (pb.find? (fun b => pos < b.2.1)).map (·.2.2) := by
  induction pb with
  | nil => rfl
  | cons b rest ih =>
    by_cases h : pos < b.2.1
    · simp [pageLoop, h]
    · simp [pageLoop, h, ih]

/-- C8: for every offset and list of `(start, end, page_number)` triples,
`_get_page_for_position` returns the page of the first triple whose `end`
strictly exceeds the offset, else the last triple's page, else the default
page 1 — a total function (no exception in any case). -/
theorem getPageForPosition_spec (position : Nat) (pb : List PageBound) :
    getPageForPosition position pb =
      (((pb.find? (fun b => position < b.2.1)).map (·.2.2)).getD
        (((pb.getLast?).map (·.2.2)).getD 1)) := by
  rw [getPageForPosition, pageLoop_eq_find?]
  cases hf : (pb.find? (fun b => position < b.2.1)).map (·.2.2) with
  | some p => rfl
  | none =>
    cases hl : pb.getLast? with
    | some b => rfl
    | none => rfl

/-! ### C9 — the context-title extractor ignores `table_index` -/

/-- C9: `extract_title_from_context` returns the same result for any two
table indices — the recovered title is independent of `table_index`, so every
table on a page receives the same title. -/
theorem extractTitleFromContext_index_independent
    (textChunks : List Dict) (tablePage : Int) (i j : Int) :
    extractTitleFromContext textChunks tablePage i =
      extractTitleFromContext textChunks tablePage j := rfl

/-! ### C3 — block alternation (corrected) -/

/-- C3 as stated is false: an all-whitespace prose run between two table runs
is dropped, leaving two adjacent `table` blocks. -/
theorem splitTextAndTables_adjacent_same_type :
    ¬ List.Chain' (fun a b => a.type ≠ b.type) (splitTextAndTables (lit "|a|\n \n|b|")) := by
  intro h
  have he : splitTextAndTables (lit "|a|\n \n|b|") =
      [⟨.table, lit "|a|"⟩, ⟨.table, lit "|b|"⟩] := by rfl
  rw [he] at h
  exact (List.chain'_cons.mp h).1 rfl

theorem isTableLine_bar_mem {l : Str} (h : isTableLine l = true) : '|' ∈ l := by
  unfold isTableLine at h
  rw [decide_eq_true_eq] at h
  exact (pyStrip_isInfix l).subset (List.mem_of_mem_head? h)

theorem mem_joinNL_head {c : Char} {l : Str} {rest : List Str}
    (h : c ∈ l) : c ∈ joinNL (l :: rest) := by
  cases rest with
  | nil => exact h
  | cons r rs => exact List.mem_append.mpr (Or.inl h)

theorem flushRun_eq (bt : BlockType) (cl : List Str) :
    flushRun bt cl = [] ∨
      (pyStrip (joinNL cl) ≠ [] ∧ flushRun bt cl = [⟨bt, pyStrip (joinNL cl)⟩]) := by
  cases cl with
  | nil => exact Or.inl rfl
  | cons a l =>
    by_cases h : pyStrip (joinNL (a :: l)) = []
    · exact Or.inl (by simp [flushRun, h])
    · exact Or.inr ⟨h, by simp [flushRun, h]⟩

theorem flushRun_table_content {cl : List Str} (hne : cl ≠ [])
    (hall : ∀ l ∈ cl, isTableLine l = true) :
    ∃ c, flushRun .table cl = [⟨.table, c⟩] ∧ c ≠ [] := by
  obtain ⟨l₀, tl, rfl⟩ := List.exists_cons_of_ne_nil hne
  have hbar : '|' ∈ joinNL (l₀ :: tl) :=
    mem_joinNL_head (isTableLine_bar_mem (hall l₀ (List.mem_cons_self l₀ tl)))
  have hc : pyStrip (joinNL (l₀ :: tl)) ≠ [] :=
    (pyStrip_ne_nil_iff _).mpr ⟨'|', hbar, by decide⟩
  rcases flushRun_eq .table (l₀ :: tl) with hfl | ⟨-, hfl⟩
  · exact absurd hfl (by simp [flushRun, hc])
  · exact ⟨pyStrip (joinNL (l₀ :: tl)), hfl, hc⟩

/-- Predicate `ok a b`: the pair is not two prose blocks. -/
def okPair (a b : Block) : Prop := ¬ (a.type = .text ∧ b.type = .text)

theorem splitTTLoop_spec (lines : List Str) :
    (∀ cl, List.Chain' okPair (splitTTLoop lines .text cl)) ∧
    (∀ cl, cl ≠ [] → (∀ l ∈ cl, isTableLine l = true) →
      List.Chain' okPair (splitTTLoop lines .table cl) ∧
      ∃ c t, splitTTLoop lines .table cl = ⟨.table, c⟩ :: t) := by
  induction lines with
  | nil =>
    constructor
    · intro cl
      show List.Chain' okPair (flushRun .text cl)
      rcases flushRun_eq .text cl with hfl | ⟨-, hfl⟩ <;> rw [hfl]
      · exact List.chain'_nil
      · exact List.chain'_singleton _
    · intro cl hne hall
      obtain ⟨c, hfl, -⟩ := flushRun_table_content hne hall
      show List.Chain' okPair (flushRun .table cl) ∧
        ∃ c t, flushRun .table cl = ⟨.table, c⟩ :: t
      rw [hfl]
      exact ⟨List.chain'_singleton _, c, [], rfl⟩
  | cons line rest ih =>
    constructor
    · intro cl
      by_cases hit : isTableLine line = true
      · -- transition to table
        have : splitTTLoop (line :: rest) .text cl =
            flushRun .text cl ++ splitTTLoop rest .table [line] := by
          simp [splitTTLoop, hit]
        rw [this]
        obtain ⟨hchain, c, t, hhead⟩ :=
          ih.2 [line] (by simp) (by intro l hl; rw [List.mem_singleton] at hl; rw [hl]; exact hit)
        rcases flushRun_eq .text cl with hfl | ⟨-, hfl⟩ <;> rw [hfl]
        · simpa using hchain
        · rw [List.singleton_append, List.chain'_cons']
          refine ⟨?_, hchain⟩
          intro y hy
          rw [hhead] at hy
          simp only [List.head?_cons, Option.mem_def, Option.some.injEq] at hy
          intro hcon
          rw [← hy] at hcon
          exact absurd hcon.2 (by simp)
      · -- stay in text
        have : splitTTLoop (line :: rest) .text cl =
            splitTTLoop rest .text (cl ++ [line]) := by
          simp [splitTTLoop, hit]
        rw [this]
        exact ih.1 _
    · intro cl hne hall
      by_cases hit : isTableLine line = true
      · -- stay in table
        have heq : splitTTLoop (line :: rest) .table cl =
            splitTTLoop rest .table (cl ++ [line]) := by
          simp [splitTTLoop, hit]
        rw [heq]
        refine ih.2 _ (by simp) ?_
        intro l hl
        rcases List.mem_append.mp hl with h | h
        · exact hall l h
        · rw [List.mem_singleton] at h; rw [h]; exact hit
      · -- transition to text
        have heq : splitTTLoop (line :: rest) .table cl =
            flushRun .table cl ++ splitTTLoop rest .text [line] := by
          simp [splitTTLoop, hit]
        obtain ⟨c, hfl, -⟩ := flushRun_table_content hne hall
        rw [heq, hfl, List.singleton_append]
        constructor
        · rw [List.chain'_cons']
          refine ⟨?_, ih.1 _⟩
          intro y _
          intro hcon
          exact absurd hcon.1 (by simp)
        · exact ⟨c, _, rfl⟩

/-- C3 amended: in the block list of `_split_text_and_tables`, no two
consecutive blocks are both `text`; consecutive `table` blocks can occur
(when an all-whitespace prose run between two table runs is dropped). -/
theorem splitTextAndTables_no_adjacent_text (sectionText : Str) :
    List.Chain' okPair (splitTextAndTables sectionText) :=
  (splitTTLoop_spec (splitOnNL sectionText)).1 []

/-! ### C10 — `classify_and_title_tables` only touches its three keys -/

theorem dget_map_set (d : Dict) (k k' : Str) (v : Val) (h : k' ≠ k) :
    dget (d.map (fun kv => if kv.1 = k then (k, v) else kv)) k' = dget d k' := by
  induction d with
  | nil => rfl
  | cons kv rest ih =>
    by_cases hk : kv.1 = k
    · have hk' : ¬ (k = k') := fun he => h he.symm
      rw [List.map_cons, if_pos hk]
      simp only [dget, List.find?]
      rw [show (decide (k = k')) = false from decide_eq_false hk',
        show (decide (kv.1 = k')) = false from decide_eq_false (fun he => hk' (hk ▸ he))]
      exact ih
    · rw [List.map_cons, if_neg hk]
      simp only [dget, List.find?]
      cases hkk : decide (kv.1 = k') with
      | true => rfl
      | false => exact ih

theorem dget_append_single_of_ne (d : Dict) (k k' : Str) (v : Val) (h : k' ≠ k) :
    dget (d ++ [(k, v)]) k' = dget d k' := by
  induction d with
  | nil =>
    show dget [(k, v)] k' = none
    unfold dget
    rw [List.find?_cons_of_neg _ (by simpa using fun he : k = k' => h he.symm)]
    rfl
  | cons kv rest ih =>
    by_cases hkk : kv.1 = k'
    · unfold dget
      rw [List.cons_append, List.find?_cons_of_pos _ (by simpa using hkk),
        List.find?_cons_of_pos _ (by simpa using hkk)]
    · unfold dget at ih ⊢
      rw [List.cons_append, List.find?_cons_of_neg _ (by simpa using hkk),
        List.find?_cons_of_neg _ (by simpa using hkk)]
      exact ih

theorem dget_dset_of_ne (d : Dict) (k k' : Str) (v : Val) (h : k' ≠ k) :
    dget (dset d k v) k' = dget d k' := by
  unfold dset
  by_cases ha : d.any (fun kv => kv.1 = k)
  · rw [if_pos ha]
    exact dget_map_set d k k' v h
  · rw [if_neg ha]
    exact dget_append_single_of_ne d k k' v h

/-- The three keys written by `classify_and_title_tables`. -/
def enhancedKeys : List Str := [lit "title", lit "classification", lit "context_title"]

theorem dget_enhanceTable_of_ne (textChunks : List Dict) (t : Dict) (i : Nat)
    (k : Str) (hk : k ∉ enhancedKeys) : dget (enhanceTable textChunks t i) k = dget t k := by
  simp only [enhancedKeys, List.mem_cons, List.mem_singleton, not_or] at hk
  obtain ⟨h1, h2, h3, -⟩ := hk
  unfold enhanceTable
  rw [dget_dset_of_ne _ _ _ _ h3, dget_dset_of_ne _ _ _ _ h2, dget_dset_of_ne _ _ _ _ h1]

theorem catLoop_frame (textChunks : List Dict) :
    ∀ (tables : List Dict) (i : Nat),
      (catLoop textChunks tables i).length = tables.length ∧
      List.Forall₂ (fun outR inR => ∀ k : Str, k ∉ enhancedKeys → dget outR k = dget inR k)
        (catLoop textChunks tables i) tables := by
  intro tables
  induction tables with
  | nil => exact fun _ => ⟨rfl, List.Forall₂.nil⟩
  | cons t rest ih =>
    intro i
    refine ⟨by rw [catLoop, List.length_cons, (ih (i + 1)).1]; rfl, ?_⟩
    exact List.Forall₂.cons (dget_enhanceTable_of_ne textChunks t i) (ih (i + 1)).2

/-- C10: `classify_and_title_tables` returns one record per input table, and
each output record agrees with its input record on every key other than
`title`, `classification` and `context_title` (the input records themselves
are pure values here — the Python code copies each dict before updating it). -/
theorem classifyAndTitleTables_frame (tables textChunks : List Dict) :
    (classifyAndTitleTables tables textChunks).length = tables.length ∧
    List.Forall₂ (fun outR inR => ∀ k : Str, k ∉ enhancedKeys → dget outR k = dget inR k)
      (classifyAndTitleTables tables textChunks) tables :=
  catLoop_frame textChunks tables 0

/-- Witness for C10 at a concrete record: the `data` key (not one of the three
written keys) is preserved. -/
theorem classifyAndTitleTables_frame_witness :
    ((lit "data" : Str) ∉ enhancedKeys) ∧
    dget ((classifyAndTitleTables [[(lit "data", Val.vInt 0)]] []).headD [])
        (lit "data") =
      dget [(lit "data", Val.vInt 0)] (lit "data") := by
  refine ⟨by decide, ?_⟩
  have h := (classifyAndTitleTables_frame [[(lit "data", Val.vInt 0)]] []).2
  cases h with
  | cons rel rest => exact rel (lit "data") (by decide)

/-! ### C7 — termination of `_chunk_text_block` (corrected) -/

theorem windowLoop_step0_none (fuel : Nat) :
    ∀ (para : Str) (size pos : Nat), pos < para.length →
      windowLoopF fuel para size 0 pos = none := by
  induction fuel with
  | zero => intros; rfl
  | succ n ih =>
    intro para size pos h
    rw [windowLoopF, if_pos h, Nat.add_zero, ih para size pos h]
    rfl

theorem chunkTextBlock_abc_none (fuel : Nat) :
    chunkTextBlockF fuel (lit "abc") 2 2 = none := by
  have hw := windowLoop_step0_none fuel (lit "abc") 2 0 (by decide)
  show (match windowLoopF fuel (lit "abc") 2 (2 - 2) 0 with
        | none => none
        | some ws =>
            (chunkLoopF fuel [] 2 2 []).map (([] : List Str) ++ ws ++ ·)) = none
  rw [show (2 - 2 : Nat) = 0 from rfl, hw]

/-- C7 as stated is false: with `chunk_overlap = chunk_size` (step 0) the
sliding-window loop never terminates on a paragraph longer than the budget
(the embedding returns `none` for every amount of fuel). -/
theorem chunkTextBlock_diverges : ¬ TerminatesCTB (lit "abc") 2 2 := by
  rintro ⟨fuel, ps, h⟩
  rw [chunkTextBlock_abc_none fuel] at h
  exact Option.noConfusion h

theorem windowLoop_sufficient (para : Str) (size step : Nat) :
    ∀ (n pos : Nat), para.length - pos ≤ n * step →
      (windowLoopF (n + 1) para size step pos).isSome := by
  intro n
  induction n with
  | zero =>
    intro pos h
    have hp : ¬ pos < para.length := by omega
    rw [windowLoopF, if_neg hp]
    rfl
  | succ m ih =>
    intro pos h
    by_cases hp : pos < para.length
    · rw [windowLoopF, if_pos hp]
      have hrec : para.length - (pos + step) ≤ m * step := by
        have hmul : (m + 1) * step = m * step + step := by ring
        omega
      obtain ⟨ws, hws⟩ := Option.isSome_iff_exists.mp (ih (pos + step) hrec)
      rw [hws]
      rfl
    · rw [windowLoopF, if_neg hp]
      rfl

theorem pyStrip_length_le (s : Str) : (pyStrip s).length ≤ s.length :=
  (pyStrip_isInfix s).length_le

theorem chunkLoop_sufficient (size overlap T : Nat) (hsize : 0 < size)
    (hov : overlap < size) :
    ∀ (paras : List Str) (current : Str),
      (∀ p ∈ paras, p.length ≤ T) →
      (chunkLoopF (T + 1) paras size overlap current).isSome := by
  intro paras
  induction paras with
  | nil => intro current _; rw [chunkLoopF]; rfl
  | cons para₀ rest ih =>
    intro current hlen
    have hrest : ∀ p ∈ rest, p.length ≤ T := fun p hp => hlen p (List.mem_cons_of_mem _ hp)
    rw [chunkLoopF]
    by_cases h1 : pyStrip para₀ = []
    · rw [if_pos h1]
      exact ih current hrest
    · rw [if_neg h1]
      by_cases h2 : current.length + (pyStrip para₀).length + 2 ≤ size
      · rw [if_pos h2]
        exact ih _ hrest
      · rw [if_neg h2]
        by_cases h3 : (pyStrip para₀).length ≤ size
        · rw [if_pos h3]
          obtain ⟨cs, hcs⟩ := Option.isSome_iff_exists.mp (ih _ hrest)
          rw [hcs]
          rfl
        · rw [if_neg h3]
          have hstep : 0 < size - overlap := by omega
          have hfuel : (pyStrip para₀).length - 0 ≤ T * (size - overlap) := by
            have hT : (pyStrip para₀).length ≤ T :=
              le_trans (pyStrip_length_le para₀) (hlen para₀ (List.mem_cons_self _ _))
            have hTT : T ≤ T * (size - overlap) := Nat.le_mul_of_pos_right _ hstep
            omega
          have hw := windowLoop_sufficient (pyStrip para₀) size (size - overlap)
            T 0 hfuel
          obtain ⟨ws, hws⟩ := Option.isSome_iff_exists.mp hw
          rw [hws]
          obtain ⟨cs, hcs⟩ := Option.isSome_iff_exists.mp (ih [] hrest)
          rw [hcs]
          rfl

/-- Every part produced by `splitBlankAux` is an infix of the scanned text. -/
theorem splitBlankAux_parts_isInfix :
    ∀ (fuel : Nat) (s accRev part : Str),
      part ∈ splitBlankAux fuel s accRev → part <:+: (accRev.reverse ++ s) := by
  intro fuel
  induction fuel with
  | zero =>
    intro s accRev part h
    rw [splitBlankAux, List.mem_singleton] at h
    exact h ▸ List.infix_refl _
  | succ n ih =>
    intro s accRev part h
    cases s with
    | nil =>
      rw [splitBlankAux, List.mem_singleton] at h
      exact h ▸ (List.prefix_append _ _).isInfix
    | cons c rest =>
      rw [splitBlankAux] at h
      by_cases hc : c = '\n'
      · rw [if_pos hc] at h
        cases hj : ((rest.takeWhile pyIsSpace).reverse.findIdx? (· = '\n')).map
            (fun k => (rest.takeWhile pyIsSpace).length - 1 - k) with
        | some j =>
          rw [hj] at h
          rcases List.mem_cons.mp h with rfl | hmem
          · exact (List.prefix_append _ _).isInfix
          · have hsub := ih (rest.drop (j + 1)) [] part hmem
            rw [List.reverse_nil, List.nil_append] at hsub
            have h1 : part <:+: c :: rest :=
              hsub.trans ((rest.drop_suffix (j + 1)).trans (List.suffix_cons c rest)).isInfix
            obtain ⟨u, w, huw⟩ := h1
            exact ⟨accRev.reverse ++ u, w, by rw [← huw]; simp [List.append_assoc]⟩
        | none =>
          rw [hj] at h
          have hsub := ih rest (c :: accRev) part h
          rwa [List.reverse_cons, List.append_assoc, List.singleton_append] at hsub
      · rw [if_neg hc] at h
        have hsub := ih rest (c :: accRev) part h
        rwa [List.reverse_cons, List.append_assoc, List.singleton_append] at hsub

theorem pySplitBlank_parts_isInfix {s part : Str} (h : part ∈ pySplitBlank s) :
    part <:+: s := by
  have := splitBlankAux_parts_isInfix (s.length + 1) s [] part h
  rwa [List.reverse_nil, List.nil_append] at this

/-- C7 amended: `_chunk_text_block` terminates for every input text whenever
`chunk_overlap < chunk_size` (the configuration the sliding-window step
`chunk_size − chunk_overlap` is positive for). -/
theorem chunkTextBlock_terminates (text : Str) (size overlap : Nat)
    (hsize : 0 < size) (hov : overlap < size) : TerminatesCTB text size overlap := by
  by_cases hlen : text.length ≤ size
  · exact ⟨0, [text], by rw [chunkTextBlockF, if_pos hlen]⟩
  · have hp : ∀ p ∈ pySplitBlank text, p.length ≤ text.length :=
      fun p hp => (pySplitBlank_parts_isInfix hp).length_le
    have h := chunkLoop_sufficient size overlap text.length hsize hov
      (pySplitBlank text) [] hp
    obtain ⟨ps, hps⟩ := Option.isSome_iff_exists.mp h
    exact ⟨text.length + 1, ps, by rw [chunkTextBlockF, if_neg hlen]; exact hps⟩

/-- Witness for the amended C7 at concrete arguments. -/
theorem chunkTextBlock_terminates_witness :
    (0 : Nat) < 2 ∧ (0 : Nat) < 2 ∧ TerminatesCTB (lit "abcde") 2 0 :=
  ⟨by decide, by decide, chunkTextBlock_terminates (lit "abcde") 2 0 (by decide) (by decide)⟩

/-! ### C2 — chunk ids are `0 .. N-1` in emission order -/

theorem emitTexts_length (doc title : Str) (page : Int) :
    ∀ (ts : List Str) (cid : Nat), (emitTexts doc title page ts cid).length = ts.length := by
  intro ts
  induction ts with
  | nil => intro cid; rfl
  | cons t rest ih => intro cid; rw [emitTexts, List.length_cons, List.length_cons, ih]

theorem emitTexts_ids (doc title : Str) (page : Int) :
    ∀ (ts : List Str) (cid : Nat),
      (emitTexts doc title page ts cid).map (·.chunk_id) = List.range' cid ts.length := by
  intro ts
  induction ts with
  | nil => intro cid; rfl
  | cons t rest ih =>
    intro cid
    rw [emitTexts, List.map_cons, List.length_cons, List.range'_succ, ih]

theorem runBlocksF_ids (fuel : Nat) (pb : List PageBound) (doc : Str)
    (size overlap : Nat) (title : Str) :
    ∀ (blocks : List Block) (offset cid : Nat) (cs : List Chunk) (cid' : Nat),
      runBlocksF fuel pb doc size overlap title blocks offset cid = some (cs, cid') →
      cid' = cid + cs.length ∧ cs.map (·.chunk_id) = List.range' cid cs.length := by
  intro blocks
  induction blocks with
  | nil =>
    intro offset cid cs cid' h
    rw [runBlocksF] at h
    cases h
    exact ⟨rfl, rfl⟩
  | cons b rest ih =>
    intro offset cid cs cid' h
    rw [runBlocksF] at h
    by_cases hskip : pyStrip b.content = []
    · rw [if_pos hskip] at h
      exact ih offset cid cs cid' h
    · rw [if_neg hskip] at h
      cases hbt : b.type with
      | table =>
        rw [hbt] at h
        obtain ⟨r, hr, hmap⟩ := Option.map_eq_some'.mp h
        obtain ⟨hcid', hids⟩ := ih _ _ _ _ hr
        obtain ⟨hcs, hcid⟩ := Prod.mk.injEq .. ▸ hmap
        subst hcs hcid
        constructor
        · rw [List.length_cons]; omega
        · rw [List.map_cons, List.length_cons, List.range'_succ, hids]
      | text =>
        rw [hbt] at h
        cases hct : chunkTextBlockF fuel b.content size overlap with
        | none => rw [hct] at h; exact absurd h (by simp)
        | some pieces =>
          rw [hct] at h
          obtain ⟨r, hr, hmap⟩ := Option.map_eq_some'.mp h
          obtain ⟨hcid', hids⟩ := ih _ _ _ _ hr
          obtain ⟨hcs, hcid⟩ := Prod.mk.injEq .. ▸ hmap
          subst hcs hcid
          have hkl := emitTexts_length doc title (getPageForPosition offset pb)
            (pieces.filter (fun t => pyStrip t ≠ [])) cid
          constructor
          · rw [List.length_append, hkl]; omega
          · rw [List.map_append, emitTexts_ids, hids, List.length_append, hkl]
            have hra := List.range'_append cid (pieces.filter (fun t => pyStrip t ≠ [])).length
              r.1.length 1
            rw [one_mul] at hra
            rw [hra, Nat.add_comm r.1.length _]

theorem runSectionsF_ids (fuel : Nat) (pb : List PageBound) (doc : Str)
    (size overlap : Nat) :
    ∀ (sections : List Section) (cid : Nat) (cs : List Chunk),
      runSectionsF fuel pb doc size overlap sections cid = some cs →
      cs.map (·.chunk_id) = List.range' cid cs.length := by
  intro sections
  induction sections with
  | nil =>
    intro cid cs h
    rw [runSectionsF] at h
    cases h
    rfl
  | cons s rest ih =>
    intro cid cs h
    rw [runSectionsF] at h
    cases hb : runBlocksF fuel pb doc size overlap s.title
        (splitTextAndTables s.text) s.start cid with
    | none => rw [hb] at h; exact absurd h (by simp)
    | some r =>
      rw [hb] at h
      obtain ⟨cs₂, hcs₂, hmap⟩ := Option.map_eq_some'.mp h
      obtain ⟨hcid', hids₁⟩ := runBlocksF_ids fuel pb doc size overlap s.title _ _ _ _ _
        (by rw [hb])
      subst hmap
      rw [List.map_append, hids₁, ih _ _ hcs₂, hcid', List.length_append]
      have := List.range'_append cid r.1.length cs₂.length 1
      rw [one_mul] at this
      rw [this, Nat.add_comm cs₂.length _]

/-- C2: whenever `chunk_pages` returns a list of `N` chunks, their `chunk_id`
fields in emission order are exactly `0, 1, …, N-1` — unique, strictly
increasing, no gaps. -/
theorem chunkPages_chunk_ids (fuel : Nat) (pages : List PageRec) (doc : Str)
    (size overlap : Nat) (chunks : List Chunk)
    (h : chunkPagesF fuel pages doc size overlap = some chunks) :
    chunks.map (·.chunk_id) = List.range chunks.length := by
  rw [chunkPagesF] at h
  by_cases hp : pages.isEmpty
  · rw [if_pos hp] at h
    cases h
    rfl
  · rw [if_neg hp] at h
    rw [List.range_eq_range']
    exact runSectionsF_ids fuel _ doc size overlap _ 0 chunks h

/-- Witness for C2 at a concrete document. -/
theorem chunkPages_chunk_ids_witness :
    chunkPagesF 100 [⟨1, lit "abc"⟩] (lit "d") 500 50 =
      some [⟨lit "d", 0, lit "abc", 1, [], [(lit "chunk_type", lit "text")]⟩] ∧
    ([⟨lit "d", 0, lit "abc", 1, [], [(lit "chunk_type", lit "text")]⟩] :
        List Chunk).map (·.chunk_id) =
      List.range ([⟨lit "d", 0, lit "abc", 1, [], [(lit "chunk_type", lit "text")]⟩] :
        List Chunk).length :=
  ⟨rfl, chunkPages_chunk_ids 100 [⟨1, lit "abc"⟩] (lit "d") 500 50 _ rfl⟩

/-! ### C1 — table blocks are emitted verbatim, exactly once, never split -/

theorem lstrip_eq_self_of_head {y : Str} (h : ∀ c, y.head? = some c → ¬ pyIsSpace c) :
    lstrip y = y := by
  cases y with
  | nil => rfl
  | cons c t => exact List.dropWhile_cons_of_neg (by simpa using h c rfl)

theorem rstrip_eq_self_of_last {y : Str} (h : ∀ c, y.getLast? = some c → ¬ pyIsSpace c) :
    rstrip y = y := by
  cases hy : y.reverse with
  | nil =>
    have : y = [] := by simpa using congrArg List.reverse hy
    rw [this]; rfl
  | cons c t =>
    have hc : y.getLast? = some c := by rw [← List.head?_reverse, hy]; rfl
    rw [rstrip, hy, List.dropWhile_cons_of_neg (by simpa using h c hc), ← hy,
      List.reverse_reverse]

theorem pyStrip_idem (s : Str) : pyStrip (pyStrip s) = pyStrip s := by
  have hr : rstrip (pyStrip s) = pyStrip s :=
    rstrip_eq_self_of_last (fun c hc => pyStrip_getLast?_not_space hc)
  have hl : lstrip (pyStrip s) = pyStrip s := by
    refine lstrip_eq_self_of_head (fun c hc => ?_)
    cases hps : pyStrip s with
    | nil => rw [hps] at hc; exact absurd hc (by simp)
    | cons a t =>
      rw [hps] at hc
      simp only [List.head?_cons, Option.some.injEq] at hc
      exact hc ▸ pyStrip_head_not_space hps
  show lstrip (rstrip (pyStrip s)) = pyStrip s
  rw [hr, hl]

theorem mem_splitTTLoop_content :
    ∀ (lines : List Str) (ct : BlockType) (cl : List Str) (b : Block),
      b ∈ splitTTLoop lines ct cl → ∃ src, b.content = pyStrip src ∧ b.content ≠ [] := by
  intro lines
  induction lines with
  | nil =>
    intro ct cl b h
    rw [splitTTLoop] at h
    rcases flushRun_eq ct cl with hfl | ⟨hne, hfl⟩ <;> rw [hfl] at h
    · exact absurd h (List.not_mem_nil b)
    · rw [List.mem_singleton] at h
      exact ⟨joinNL cl, by rw [h], by rw [h]; exact hne⟩
  | cons line rest ih =>
    intro ct cl b h
    rw [splitTTLoop] at h
    by_cases h1 : isTableLine line && (ct == .text)
    · rw [if_pos h1] at h
      rcases List.mem_append.mp h with hm | hm
      · rcases flushRun_eq .text cl with hfl | ⟨hne, hfl⟩ <;> rw [hfl] at hm
        · exact absurd hm (List.not_mem_nil b)
        · rw [List.mem_singleton] at hm
          exact ⟨joinNL cl, by rw [hm], by rw [hm]; exact hne⟩
      · exact ih _ _ _ hm
    · rw [if_neg h1] at h
      by_cases h2 : !isTableLine line && (ct == .table)
      · rw [if_pos h2] at h
        rcases List.mem_append.mp h with hm | hm
        · rcases flushRun_eq .table cl with hfl | ⟨hne, hfl⟩ <;> rw [hfl] at hm
          · exact absurd hm (List.not_mem_nil b)
          · rw [List.mem_singleton] at hm
            exact ⟨joinNL cl, by rw [hm], by rw [hm]; exact hne⟩
        · exact ih _ _ _ hm
      · rw [if_neg h2] at h
        exact ih _ _ _ h

theorem splitTextAndTables_content {st : Str} {b : Block}
    (h : b ∈ splitTextAndTables st) : pyStrip b.content = b.content ∧ b.content ≠ [] := by
  obtain ⟨src, hsrc, hne⟩ := mem_splitTTLoop_content _ _ _ _ h
  exact ⟨by rw [hsrc, pyStrip_idem], hne⟩

theorem emitTexts_filter_table (doc title : Str) (page : Int) :
    ∀ (ts : List Str) (cid : Nat),
      (emitTexts doc title page ts cid).filter isTableChunk = [] := by
  intro ts
  induction ts with
  | nil => intro cid; rfl
  | cons t rest ih =>
    intro cid
    have hfalse : isTableChunk
        (⟨doc, cid, t, page, title, [(lit "chunk_type", lit "text")]⟩ : Chunk) = false := rfl
    rw [emitTexts, List.filter_cons_of_neg
      (fun hh => by rw [hfalse] at hh; exact Bool.false_ne_true hh), ih]

theorem runBlocksF_tables (fuel : Nat) (pb : List PageBound) (doc : Str)
    (size overlap : Nat) (title : Str) :
    ∀ (blocks : List Block) (offset cid : Nat) (cs : List Chunk) (cid' : Nat),
      runBlocksF fuel pb doc size overlap title blocks offset cid = some (cs, cid') →
      (∀ b ∈ blocks, pyStrip b.content = b.content ∧ b.content ≠ []) →
      (cs.filter isTableChunk).map (·.text) =
        ((blocks.filter (fun b => b.type = .table)).map (·.content)) := by
  intro blocks
  induction blocks with
  | nil =>
    intro offset cid cs cid' h _
    rw [runBlocksF] at h
    cases h
    rfl
  | cons b rest ih =>
    intro offset cid cs cid' h hall
    have hbcontent := hall b (List.mem_cons_self b rest)
    have hrest : ∀ x ∈ rest, pyStrip x.content = x.content ∧ x.content ≠ [] :=
      fun x hx => hall x (List.mem_cons_of_mem b hx)
    rw [runBlocksF] at h
    have hskip : ¬ pyStrip b.content = [] := by
      rw [hbcontent.1]; exact hbcontent.2
    rw [if_neg hskip] at h
    cases hbt : b.type with
    | table =>
      rw [hbt] at h
      obtain ⟨r, hr, hmap⟩ := Option.map_eq_some'.mp h
      obtain ⟨hcs, -⟩ := Prod.mk.injEq .. ▸ hmap
      subst hcs
      rw [List.filter_cons_of_pos (by rfl), List.map_cons,
        List.filter_cons_of_pos (by simp [hbt]), List.map_cons,
        ih _ _ _ _ hr hrest]
    | text =>
      rw [hbt] at h
      cases hct : chunkTextBlockF fuel b.content size overlap with
      | none => rw [hct] at h; exact absurd h (by simp)
      | some pieces =>
        rw [hct] at h
        obtain ⟨r, hr, hmap⟩ := Option.map_eq_some'.mp h
        obtain ⟨hcs, -⟩ := Prod.mk.injEq .. ▸ hmap
        subst hcs
        rw [List.filter_append, emitTexts_filter_table, List.nil_append,
          List.filter_cons_of_neg (by simp [hbt]), ih _ _ _ _ hr hrest]

theorem runSectionsF_tables (fuel : Nat) (pb : List PageBound) (doc : Str)
    (size overlap : Nat) :
    ∀ (sections : List Section) (cid : Nat) (cs : List Chunk),
      runSectionsF fuel pb doc size overlap sections cid = some cs →
      (cs.filter isTableChunk).map (·.text) =
        sections.flatMap (fun s =>
          ((splitTextAndTables s.text).filter (fun b => b.type = .table)).map
            (·.content)) := by
  intro sections
  induction sections with
  | nil =>
    intro cid cs h
    rw [runSectionsF] at h
    cases h
    rfl
  | cons s rest ih =>
    intro cid cs h
    rw [runSectionsF] at h
    cases hb : runBlocksF fuel pb doc size overlap s.title
        (splitTextAndTables s.text) s.start cid with
    | none => rw [hb] at h; exact absurd h (by simp)
    | some r =>
      rw [hb] at h
      obtain ⟨cs₂, hcs₂, hmap⟩ := Option.map_eq_some'.mp h
      subst hmap
      rw [List.filter_append, List.map_append, List.flatMap_cons,
        runBlocksF_tables fuel pb doc size overlap s.title _ _ _ _ _ hb
          (fun b hbm => splitTextAndTables_content hbm),
        ih _ _ hcs₂]

/-- C1: whenever `chunk_pages` returns, the texts of its table-typed chunks,
in order, are exactly the contents of the table blocks produced by the block
separator over all sections — each table block becomes exactly one chunk,
verbatim and tagged `table`, and is never subdivided no matter how long it is
relative to the `chunk_size` budget. -/
theorem chunkPages_tables_verbatim (fuel : Nat) (pages : List PageRec) (doc : Str)
    (size overlap : Nat) (chunks : List Chunk)
    (h : chunkPagesF fuel pages doc size overlap = some chunks) :
    (chunks.filter isTableChunk).map (·.text) = tableBlockContents pages := by
  rw [chunkPagesF] at h
  by_cases hp : pages.isEmpty
  · rw [if_pos hp] at h
    cases h
    rw [List.isEmpty_iff.mp hp]
    rfl
  · rw [if_neg hp] at h
    exact runSectionsF_tables fuel _ doc size overlap _ 0 chunks h

/-- Witness for C1 at a concrete document containing one oversized table. -/
theorem chunkPages_tables_verbatim_witness :
    chunkPagesF 100 [⟨1, lit "|a|\n|b|"⟩] (lit "d") 4 1 =
      some [⟨lit "d", 0, lit "|a|\n|b|", 1, [], [(lit "chunk_type", lit "table")]⟩] ∧
    (([⟨lit "d", 0, lit "|a|\n|b|", 1, [], [(lit "chunk_type", lit "table")]⟩] :
        List Chunk).filter isTableChunk).map (·.text) =
      tableBlockContents [⟨1, lit "|a|\n|b|"⟩] :=
  ⟨rfl, chunkPages_tables_verbatim 100 [⟨1, lit "|a|\n|b|"⟩] (lit "d") 4 1 _ rfl⟩

/-! ### C4 — page monotonicity fails (code bug)

The running offset of `chunk_pages` advances by `len(content) + 2` per block,
but blocks inside a section are separated by single newlines and stripped, so
after many short blocks the offset overruns the true position.  On the
two-page document below (page numbers 1 then 2, in order), the preamble's
ninth block is located at the drifted offset 24 — already inside page 2's
span — while the following section's chunk is located at its section start 18,
back inside page 1: the emitted page sequence is `[1,1,1,1,1,1,1,1,2,1]`,
which regresses. -/

def c4Pages : List PageRec :=
  [⟨1, lit "a\n|\nb\n|\nc\n|\nd\n|\ne\n一、AB"⟩, ⟨2, lit "zz"⟩]

/-- C4 fails on the code: for an in-order two-page input, `chunk_pages` emits
a chunk on page 2 followed by a chunk on page 1. -/
theorem chunkPages_page_regression :
    (chunkPagesF 1000 c4Pages (lit "doc") 500 50).map (fun cs => cs.map (·.page)) =
      some [1, 1, 1, 1, 1, 1, 1, 1, 2, 1] ∧
    ¬ List.Chain' (fun a b => a ≤ b) ([1, 1, 1, 1, 1, 1, 1, 1, 2, 1] : List Int) := by
  constructor
  · rfl
  · intro h
    simp only [List.chain'_cons, List.chain'_singleton, and_true] at h
    omega

/-! ### C6 — trimmed-nonempty output pieces (corrected)

`_chunk_text_block` can return pieces that trim to the empty string: the
whole-text fast path returns an all-whitespace text verbatim, and a sliding
window positioned inside a whitespace run of length ≥ `chunk_size` yields an
all-whitespace slice.  `maxSpaceRun` measures the longest whitespace run; the
amended guarantee assumes a trimmed-nonempty input with all whitespace runs
shorter than the budget. -/

/-- Longest run of consecutive whitespace characters (`cur` = current run,
`best` = best so far). -/
def msrAux : Str → Nat → Nat → Nat
  | [], cur, best => max cur best
  | c :: rest, cur, best =>
      if pyIsSpace c then msrAux rest (cur + 1) best
      else msrAux rest 0 (max cur best)

def maxSpaceRun (s : Str) : Nat := msrAux s 0 0

theorem msrAux_ge_best : ∀ (s : Str) (cur best : Nat), best ≤ msrAux s cur best := by
  intro s
  induction s with
  | nil => intro cur best; exact Nat.le_max_right _ _
  | cons c rest ih =>
    intro cur best
    rw [msrAux]
    by_cases hc : pyIsSpace c
    · rw [if_pos hc]; exact ih _ _
    · rw [if_neg hc]
      exact le_trans (Nat.le_max_right _ _) (ih _ _)

theorem msrAux_ge_cur : ∀ (s : Str) (cur best : Nat), cur ≤ msrAux s cur best := by
  intro s
  induction s with
  | nil => intro cur best; exact Nat.le_max_left _ _
  | cons c rest ih =>
    intro cur best
    rw [msrAux]
    by_cases hc : pyIsSpace c
    · rw [if_pos hc]; exact le_trans (Nat.le_succ _) (ih _ _)
    · rw [if_neg hc]
      exact le_trans (Nat.le_max_left _ _) (msrAux_ge_best _ _ _)

theorem msrAux_space_run :
    ∀ (l : Str), (∀ c ∈ l, pyIsSpace c) →
      ∀ (rest : Str) (cur best : Nat),
        msrAux (l ++ rest) cur best = msrAux rest (cur + l.length) best := by
  intro l
  induction l with
  | nil => intro _ rest cur best; rw [List.nil_append, List.length_nil, Nat.add_zero]
  | cons c t ih =>
    intro hl rest cur best
    rw [List.cons_append, msrAux, if_pos (hl c (List.mem_cons_self c t)),
      ih (fun x hx => hl x (List.mem_cons_of_mem c hx)) rest (cur + 1) best,
      List.length_cons]
    congr 1
    omega

theorem spaceRun_le_msrAux :
    ∀ (pre l post : Str) (cur best : Nat), (∀ c ∈ l, pyIsSpace c) →
      l.length ≤ msrAux (pre ++ (l ++ post)) cur best := by
  intro pre
  induction pre with
  | nil =>
    intro l post cur best hl
    rw [List.nil_append, msrAux_space_run l hl post cur best]
    exact le_trans (Nat.le_add_left _ _) (msrAux_ge_cur _ _ _)
  | cons c pre' ih =>
    intro l post cur best hl
    rw [List.cons_append, msrAux]
    by_cases hc : pyIsSpace c
    · rw [if_pos hc]; exact ih l post _ _ hl
    · rw [if_neg hc]; exact ih l post _ _ hl

theorem spaceRun_le_maxSpaceRun {l s : Str} (hinf : l <:+: s)
    (hl : ∀ c ∈ l, pyIsSpace c) : l.length ≤ maxSpaceRun s := by
  obtain ⟨pre, post, hs⟩ := hinf
  rw [maxSpaceRun, ← hs, List.append_assoc]
  exact spaceRun_le_msrAux pre l post 0 0 hl

theorem drop_take_isInfix (para : Str) (e pos : Nat) :
    (para.take e).drop pos <:+: para := by
  refine ⟨(para.take e).take pos, para.drop e, ?_⟩
  rw [List.take_append_drop, List.take_append_drop]

theorem mem_of_getLast?_eq {l : Str} {c : Char} (h : l.getLast? = some c) : c ∈ l := by
  have hne : l ≠ [] := by
    intro hl
    rw [hl] at h
    exact absurd h (by simp)
  rw [List.getLast?_eq_getLast l hne, Option.some.injEq] at h
  exact h ▸ List.getLast_mem hne

theorem windowLoopF_strip_ne (para : Str) (size step : Nat)
    (hpara : pyStrip para = para) (hne : para ≠ [])
    (hrun : ∀ l : Str, l <:+: para → (∀ c ∈ l, pyIsSpace c) → l.length < size) :
    ∀ (fuel pos : Nat) (ws : List Str),
      windowLoopF fuel para size step pos = some ws → ∀ p ∈ ws, pyStrip p ≠ [] := by
  intro fuel
  induction fuel with
  | zero => intro pos ws h; exact absurd h (by rw [windowLoopF]; simp)
  | succ n ih =>
    intro pos ws h p hp
    rw [windowLoopF] at h
    by_cases hpos : pos < para.length
    · rw [if_pos hpos] at h
      obtain ⟨ws', hws', hmap⟩ := Option.map_eq_some'.mp h
      subst hmap
      rcases List.mem_cons.mp hp with rfl | hmem
      · rw [pyStrip_idem]
        by_cases hfull : pos + size ≤ para.length
        · -- a full window: an all-whitespace slice would be a run of length `size`
          intro hnil
          have hall : ∀ c ∈ (para.take (min (pos + size) para.length)).drop pos,
              pyIsSpace c := (pyStrip_eq_nil_iff _).mp hnil
          have hlen : ((para.take (min (pos + size) para.length)).drop pos).length
              = size := by
            rw [List.length_drop, List.length_take, Nat.min_eq_left hfull]
            omega
          have := hrun _ (drop_take_isInfix para _ pos) hall
          omega
        · -- the tail window: contains the (non-whitespace) last char of `para`
          have hmin : min (pos + size) para.length = para.length :=
            Nat.min_eq_right (by omega)
          rw [hmin, List.take_length]
          have hdne : para.drop pos ≠ [] := by
            intro hd
            have := congrArg List.length hd
            rw [List.length_drop] at this
            simp at this
            omega
          obtain ⟨c, hc⟩ : ∃ c, (para.drop pos).getLast? = some c := by
            cases hg : (para.drop pos).getLast? with
            | none => exact absurd (List.getLast?_eq_none_iff.mp hg) hdne
            | some c => exact ⟨c, rfl⟩
          have hlast : para.getLast? = some c := by
            conv_lhs => rw [← List.take_append_drop pos para]
            rw [List.getLast?_append_of_ne_nil _ hdne]
            exact hc
          have hcns : ¬ pyIsSpace c :=
            pyStrip_getLast?_not_space (by rw [hpara]; exact hlast)
          exact (pyStrip_ne_nil_iff _).mpr ⟨c, mem_of_getLast?_eq hc, hcns⟩
      · exact ih _ _ hws' p hmem
    · rw [if_neg hpos] at h
      cases h
      exact absurd hp (List.not_mem_nil p)

theorem chunkLoopF_strip_ne (fuel size overlap : Nat) (text : Str)
    (hrun : maxSpaceRun text < size) :
    ∀ (paras : List Str) (current : Str) (ps : List Str),
      (∀ p ∈ paras, p <:+: text) →
      (current = [] ∨ pyStrip current ≠ []) →
      chunkLoopF fuel paras size overlap current = some ps →
      ∀ x ∈ ps, pyStrip x ≠ [] := by
  intro paras
  induction paras with
  | nil =>
    intro current ps _ hcur h x hx
    rw [chunkLoopF] at h
    cases h
    by_cases hc : pyStrip current ≠ []
    · rw [if_pos hc] at hx
      rw [List.mem_singleton] at hx
      subst hx
      rw [pyStrip_idem]
      exact hc
    · rw [if_neg hc] at hx
      exact absurd hx (List.not_mem_nil x)
  | cons para₀ rest ih =>
    intro current ps hinf hcur h x hx
    have hinfrest : ∀ p ∈ rest, p <:+: text :=
      fun p hp => hinf p (List.mem_cons_of_mem _ hp)
    have hpinf : pyStrip para₀ <:+: text :=
      (pyStrip_isInfix para₀).trans (hinf para₀ (List.mem_cons_self _ _))
    have hcurpre : current ≠ [] → pyStrip current ≠ [] := by
      intro hcne
      rcases hcur with hc | hc
      · exact absurd hc hcne
      · exact hc
    rw [chunkLoopF] at h
    by_cases h1 : pyStrip para₀ = []
    · rw [if_pos h1] at h
      exact ih current ps hinfrest hcur h x hx
    · rw [if_neg h1] at h
      by_cases h2 : current.length + (pyStrip para₀).length + 2 ≤ size
      · rw [if_pos h2] at h
        refine ih _ ps hinfrest ?_ h x hx
        by_cases hc : current = []
        · rw [if_pos hc]
          exact Or.inr (by rw [pyStrip_idem]; exact h1)
        · rw [if_neg hc]
          obtain ⟨c, hcm, hcns⟩ := (pyStrip_ne_nil_iff _).mp (hcurpre hc)
          exact Or.inr ((pyStrip_ne_nil_iff _).mpr
            ⟨c, List.mem_append.mpr (Or.inl (List.mem_append.mpr (Or.inl hcm))), hcns⟩)
      · rw [if_neg h2] at h
        by_cases h3 : (pyStrip para₀).length ≤ size
        · rw [if_pos h3] at h
          obtain ⟨ps', hps', hmap⟩ := Option.map_eq_some'.mp h
          subst hmap
          rcases List.mem_append.mp hx with hxl | hxr
          · by_cases hc : current ≠ []
            · rw [if_pos hc, List.mem_singleton] at hxl
              subst hxl
              rw [pyStrip_idem]
              exact hcurpre hc
            · rw [if_neg hc] at hxl
              exact absurd hxl (List.not_mem_nil x)
          · exact ih _ _ hinfrest (Or.inr (by rw [pyStrip_idem]; exact h1)) hps' x hxr
        · rw [if_neg h3] at h
          cases hw : windowLoopF fuel (pyStrip para₀) size (size - overlap) 0 with
          | none => rw [hw] at h; exact absurd h (by simp)
          | some ws =>
            rw [hw] at h
            obtain ⟨ps', hps', hmap⟩ := Option.map_eq_some'.mp h
            subst hmap
            rcases List.mem_append.mp hx with hxl | hxr
            · rcases List.mem_append.mp hxl with hxp | hxw
              · by_cases hc : current ≠ []
                · rw [if_pos hc, List.mem_singleton] at hxp
                  subst hxp
                  rw [pyStrip_idem]
                  exact hcurpre hc
                · rw [if_neg hc] at hxp
                  exact absurd hxp (List.not_mem_nil x)
              · refine windowLoopF_strip_ne (pyStrip para₀) size (size - overlap)
                  (pyStrip_idem para₀) h1 ?_ fuel 0 ws hw x hxw
                intro l hl hall
                exact lt_of_le_of_lt (spaceRun_le_maxSpaceRun (hl.trans hpinf) hall) hrun
            · exact ih [] _ hinfrest (Or.inl rfl) hps' x hxr

/-- C6 as stated is false: at `text = ""` (already within the budget) the
returned piece trims to the empty string, and at `text = "a      b"` (trimmed
nonempty, but containing a whitespace run of length ≥ `chunk_size`) the middle
sliding-window slice trims to the empty string.  Both at `chunk_size = 3 > 0`
and `chunk_overlap = 0 < 3`. -/
theorem chunkTextBlock_trimmed_empty_cex :
    (chunkTextBlockF 1 [] 3 0 = some [[]] ∧
      ¬ (∀ p ∈ [([] : Str)], 0 < (pyStrip p).length)) ∧
    (chunkTextBlockF 100 (lit "a      b") 3 0 = some [lit "a", [], lit "b"] ∧
      pyStrip (lit "a      b") ≠ [] ∧
      ¬ (∀ p ∈ [lit "a", ([] : Str), lit "b"], 0 < (pyStrip p).length)) := by
  refine ⟨⟨rfl, ?_⟩, rfl, by decide, ?_⟩
  · intro hall
    have := hall [] (List.mem_singleton.mpr rfl)
    simp [pyStrip, lstrip, rstrip] at this
  · intro hall
    have := hall [] (by simp)
    simp [pyStrip, lstrip, rstrip] at this

/-- C6 amended: for `chunk_size > 0`, `0 ≤ chunk_overlap < chunk_size`, and
every input text whose trimmed content is nonempty and whose whitespace runs
are all shorter than `chunk_size`, every string returned by
`_chunk_text_block` has trimmed length strictly greater than 0. -/
theorem chunkTextBlock_trimmed_nonempty (fuel : Nat) (text : Str) (size overlap : Nat)
    (ps : List Str) (hsize : 0 < size) (hov : overlap < size)
    (hne : pyStrip text ≠ []) (hrun : maxSpaceRun text < size)
    (h : chunkTextBlockF fuel text size overlap = some ps) :
    ∀ p ∈ ps, 0 < (pyStrip p).length := by
  have key : ∀ p ∈ ps, pyStrip p ≠ [] := by
    rw [chunkTextBlockF] at h
    by_cases hlen : text.length ≤ size
    · rw [if_pos hlen] at h
      cases h
      intro p hp
      rw [List.mem_singleton] at hp
      subst hp
      exact hne
    · rw [if_neg hlen] at h
      exact chunkLoopF_strip_ne fuel size overlap text hrun (pySplitBlank text) [] ps
        (fun p hp => pySplitBlank_parts_isInfix hp) (Or.inl rfl) h
  intro p hp
  exact List.length_pos.mpr (key p hp)

/-- Witness for the amended C6 at concrete arguments. -/
theorem chunkTextBlock_trimmed_nonempty_witness :
    (0 : Nat) < 2 ∧ (0 : Nat) < 2 ∧ pyStrip (lit "abcde") ≠ [] ∧
    maxSpaceRun (lit "abcde") < 2 ∧ 0 < (pyStrip (lit "ab")).length :=
  ⟨by decide, by decide, by decide, by decide,
    chunkTextBlock_trimmed_nonempty 100 (lit "abcde") 2 0 [lit "ab", lit "cd", lit "e"]
      (by decide) (by decide) (by decide) (by decide) rfl (lit "ab") (by simp)⟩

/-! ### C5 — the classifier decision rule (corrected)

The claim words the financial score as `min(1, 0.15 × matched keywords +
first-matching category bonus + 0.2 if a structural column marker appears in
the column names)`.  The code, however, skips the structural +0.2 whenever
`df.empty` — and a pandas DataFrame with column names but zero rows *is*
empty, so a grid `{columns: [项目], rows: []}` gets no structural bonus even
though a structural marker appears in its column names.  The definitions below
state the claim's formula verbatim (`claimFinancialScore`) and with the
grid-nonemptiness guard the code enforces (`specFinancialScore`). -/

/-- The financial score exactly as C5 words it (no grid-nonemptiness guard on
the structural bonus). -/
def claimFinancialScore (g : Grid) (ctx : Str) : ℚ :=
  min 1 ((FINANCIAL_KEYWORDS.countP
      (fun kw => occursIn kw (ctx ++ ' ' :: extractTableText g)) : ℚ) * (15/100)
    + (financialCategoryBonus (ctx ++ ' ' :: extractTableText g)).1
    + (if hasStructuralColumns g then 2/10 else 0))

/-- The financial score as amended: the structural +0.2 applies only when the
grid is non-empty. -/
def specFinancialScore (g : Grid) (ctx : Str) : ℚ :=
  min 1 ((FINANCIAL_KEYWORDS.countP
      (fun kw => occursIn kw (ctx ++ ' ' :: extractTableText g)) : ℚ) * (15/100)
    + (financialCategoryBonus (ctx ++ ' ' :: extractTableText g)).1
    + (if ¬ gridEmpty g ∧ hasStructuralColumns g then 2/10 else 0))

/-- The matched financial category (first matching bonus rule, priority
order). -/
def specFinancialCategory (g : Grid) (ctx : Str) : Str :=
  (financialCategoryBonus (ctx ++ ' ' :: extractTableText g)).2

/-- The fundraising score: `0.2 × matched keywords + priority-ordered category
bonus`, clamped to `[0, 1]`. -/
def specFundraisingScore (g : Grid) (ctx : Str) : ℚ :=
  min 1 ((FUNDRAISING_KEYWORDS.countP
      (fun kw => occursIn kw (ctx ++ ' ' :: extractTableText g)) : ℚ) * (2/10)
    + (fundraisingCategoryBonus (ctx ++ ' ' :: extractTableText g)).1)

theorem isFinancialReport_score_eq (g : Grid) (ctx : Str) :
    (isFinancialReport g (ctx ++ ' ' :: extractTableText g)).2.1 =
      specFinancialScore g ctx := by
  simp only [isFinancialReport, specFinancialScore]
  rw [List.countP_eq_length_filter]
  by_cases hcond : (!gridEmpty g && hasStructuralColumns g) = true
  · have hprop : ¬ gridEmpty g ∧ hasStructuralColumns g := by
      rw [Bool.and_eq_true, Bool.not_eq_true'] at hcond
      exact ⟨by simp [hcond.1], hcond.2⟩
    rw [if_pos hcond, if_pos hprop, min_comm]
  · have hprop : ¬ (¬ gridEmpty g ∧ hasStructuralColumns g) := by
      rw [Bool.and_eq_true, Bool.not_eq_true'] at hcond
      intro ⟨hn, hs⟩
      exact hcond ⟨by simpa using hn, hs⟩
    rw [if_neg hcond, if_neg hprop, add_zero, min_comm]

theorem isFundraisingTable_score_eq (g : Grid) (ctx : Str) :
    (isFundraisingTable g (ctx ++ ' ' :: extractTableText g)).2.1 =
      specFundraisingScore g ctx := by
  simp only [isFundraisingTable, specFundraisingScore]
  rw [List.countP_eq_length_filter, min_comm]

theorem isFinancialReport_category_eq (g : Grid) (ctx : Str) :
    (isFinancialReport g (ctx ++ ' ' :: extractTableText g)).2.2 =
      specFinancialCategory g ctx := by
  simp only [isFinancialReport, specFinancialCategory]

theorem cex_claimFin : claimFinancialScore ⟨[lit "项目"], []⟩ (lit "应收账款") = 7/20 := by
  rw [claimFinancialScore,
    show FINANCIAL_KEYWORDS.countP
      (fun kw => occursIn kw
        (lit "应收账款" ++ ' ' :: extractTableText ⟨[lit "项目"], []⟩)) = 1 from rfl,
    show financialCategoryBonus
      (lit "应收账款" ++ ' ' :: extractTableText ⟨[lit "项目"], []⟩) =
        (0, lit "unknown") from rfl,
    if_pos (show hasStructuralColumns ⟨[lit "项目"], []⟩ = true from rfl)]
  norm_num

theorem cex_specFin : specFinancialScore ⟨[lit "项目"], []⟩ (lit "应收账款") = 3/20 := by
  rw [specFinancialScore,
    show FINANCIAL_KEYWORDS.countP
      (fun kw => occursIn kw
        (lit "应收账款" ++ ' ' :: extractTableText ⟨[lit "项目"], []⟩)) = 1 from rfl,
    show financialCategoryBonus
      (lit "应收账款" ++ ' ' :: extractTableText ⟨[lit "项目"], []⟩) =
        (0, lit "unknown") from rfl,
    if_neg (show ¬ (¬ gridEmpty ⟨[lit "项目"], []⟩ ∧
      hasStructuralColumns ⟨[lit "项目"], []⟩) from fun hc => hc.1 rfl)]
  norm_num

theorem cex_specFund : specFundraisingScore ⟨[lit "项目"], []⟩ (lit "应收账款") = 0 := by
  rw [specFundraisingScore,
    show FUNDRAISING_KEYWORDS.countP
      (fun kw => occursIn kw
        (lit "应收账款" ++ ' ' :: extractTableText ⟨[lit "项目"], []⟩)) = 0 from rfl,
    show fundraisingCategoryBonus
      (lit "应收账款" ++ ' ' :: extractTableText ⟨[lit "项目"], []⟩) =
        (0, lit "unknown") from rfl]
  norm_num

theorem cex_type : (classifyTable ⟨[lit "项目"], []⟩ (lit "应收账款")).type = CType.other := by
  simp only [classifyTable]
  rw [isFinancialReport_score_eq, isFundraisingTable_score_eq, cex_specFin, cex_specFund]
  rw [if_neg (by norm_num), if_neg (by norm_num)]

/-- C5 as stated is false: for the grid `{columns: [项目], rows: []}` with
context `应收账款`, the claim's financial score is `0.35 > 0.3` and exceeds
the fundraising score `0`, so the claim predicts `financial_report`; the code
returns `other` (its `df.empty` guard suppresses the structural bonus for a
zero-row grid, and a DataFrame with columns but no rows is empty). -/
theorem classifyTable_claim_structural_cex :
    ¬ ((classifyTable ⟨[lit "项目"], []⟩ (lit "应收账款")).type = CType.financial_report ↔
      (claimFinancialScore ⟨[lit "项目"], []⟩ (lit "应收账款") >
          specFundraisingScore ⟨[lit "项目"], []⟩ (lit "应收账款") ∧
        claimFinancialScore ⟨[lit "项目"], []⟩ (lit "应收账款") > 3/10)) := by
  intro h
  have := h.mpr (by rw [cex_claimFin, cex_specFund]; norm_num)
  rw [cex_type] at this
  exact CType.noConfusion this

/-- C5 amended: `classify_table` returns `financial_report` (with the matched
category and confidence equal to the clamped financial score) iff the
financial score beats the fundraising score and exceeds 0.3; otherwise it
returns `fundraising` iff the fundraising score exceeds 0.3; otherwise it
returns exactly `{type: other, confidence: 0, category: unknown, title: ""}` —
where the financial score is the claim's formula with the structural +0.2
granted only for a non-empty grid. -/
theorem classifyTable_spec (g : Grid) (ctx : Str) :
    ((classifyTable g ctx).type = CType.financial_report ↔
      (specFinancialScore g ctx > specFundraisingScore g ctx ∧
        specFinancialScore g ctx > 3/10)) ∧
    ((specFinancialScore g ctx > specFundraisingScore g ctx ∧
        specFinancialScore g ctx > 3/10) →
      (classifyTable g ctx).confidence = specFinancialScore g ctx ∧
      (classifyTable g ctx).category = specFinancialCategory g ctx) ∧
    ((classifyTable g ctx).type = CType.fundraising ↔
      (¬ (specFinancialScore g ctx > specFundraisingScore g ctx ∧
          specFinancialScore g ctx > 3/10) ∧
        specFundraisingScore g ctx > 3/10)) ∧
    ((¬ (specFinancialScore g ctx > specFundraisingScore g ctx ∧
          specFinancialScore g ctx > 3/10) ∧
        specFundraisingScore g ctx > 3/10) →
      (classifyTable g ctx).confidence = specFundraisingScore g ctx) ∧
    ((¬ (specFinancialScore g ctx > specFundraisingScore g ctx ∧
          specFinancialScore g ctx > 3/10) ∧
        ¬ specFundraisingScore g ctx > 3/10) →
      classifyTable g ctx = ⟨CType.other, 0, lit "unknown", []⟩) := by
  have hfin := isFinancialReport_score_eq g ctx
  have hfund := isFundraisingTable_score_eq g ctx
  have hcat := isFinancialReport_category_eq g ctx
  simp only [classifyTable]
  rw [hfin, hfund, hcat]
  by_cases h1 : specFinancialScore g ctx > specFundraisingScore g ctx ∧
      specFinancialScore g ctx > 3/10
  · rw [if_pos h1]
    refine ⟨by simp [h1], fun _ => ⟨rfl, rfl⟩, by simp [h1], fun hc => absurd h1 hc.1,
      fun hc => absurd h1 hc.1⟩
  · rw [if_neg h1]
    by_cases h2 : specFundraisingScore g ctx > 3/10
    · rw [if_pos h2]
      exact ⟨by simp [h1], fun hc => absurd hc h1, by simp [h1, h2],
        fun _ => rfl, fun hc => absurd h2 hc.2⟩
    · rw [if_neg h2]
      exact ⟨by simp [h1], fun hc => absurd hc h1, by simp [h2], fun hc => absurd hc.2 h2,
        fun _ => rfl⟩

theorem w_specFin : specFinancialScore ⟨[], []⟩ [] = 0 := by
  rw [specFinancialScore,
    show FINANCIAL_KEYWORDS.countP
      (fun kw => occursIn kw ([] ++ ' ' :: extractTableText ⟨[], []⟩)) = 0 from rfl,
    show financialCategoryBonus ([] ++ ' ' :: extractTableText ⟨[], []⟩) =
      (0, lit "unknown") from rfl,
    if_neg (show ¬ (¬ gridEmpty ⟨[], []⟩ ∧ hasStructuralColumns ⟨[], []⟩) from
      fun hc => hc.1 rfl)]
  norm_num

theorem w_specFund : specFundraisingScore ⟨[], []⟩ [] = 0 := by
  rw [specFundraisingScore,
    show FUNDRAISING_KEYWORDS.countP
      (fun kw => occursIn kw ([] ++ ' ' :: extractTableText ⟨[], []⟩)) = 0 from rfl,
    show fundraisingCategoryBonus ([] ++ ' ' :: extractTableText ⟨[], []⟩) =
      (0, lit "unknown") from rfl]
  norm_num

/-- Witness for the amended C5 at a concrete keyword-free input (the `other`
fallback record). -/
theorem classifyTable_spec_witness :
    classifyTable ⟨[], []⟩ [] = ⟨CType.other, 0, lit "unknown", []⟩ :=
  (classifyTable_spec ⟨[], []⟩ []).2.2.2.2
    ⟨by rw [w_specFin, w_specFund]; norm_num, by rw [w_specFund]; norm_num⟩

end PDFLLM
